import Mathlib

/-!
# tinyCOS 05-06: console output path

A shallow embedding of `common.c` (`printf`) and `kernel.c` (`sbi_call`,
`putchar`, `kernel_main`) of the tinyCOS 05-06 kernel, and theorems about
them.

Conventions of the embedding.

* A `char` is a natural number below 256.  The code is RISC-V only (`ecall`,
  registers `a0`..`a7`, `wfi`); the RISC-V C ABI makes plain `char` unsigned,
  so a `char` converts to `int` or `long` without change of value.
* A pointer to `char` is the list of bytes stored from the pointed-to address
  to the end of the object it points into.  Dereferencing reads the head,
  `p++` drops it, and dereferencing the empty list is an out-of-bounds read.
* `int` and `unsigned int` are 32 bits wide.  Signed arithmetic wraps modulo
  `2^32` (`wrap32`); `/` and `%` truncate toward zero (`Int.tdiv`, `Int.tmod`).
* `long` is a machine word, kept as an integer; the code does no arithmetic
  on it.
* The effect of `printf` is the sequence of its calls to `putchar`; it is
  returned as the list `out` of the characters passed, in call order.
-/

namespace TinyCOS

/-! ## Faults and results -/

/-- Ways an execution can leave defined behaviour, and loop-fuel exhaustion. -/
inductive Fault where
  /-- A pointer was dereferenced outside its buffer. -/
  | outOfBounds
  /-- A `va_arg` found no argument, or one of an incompatible type. -/
  | badArg
  /-- Integer division by zero. -/
  | divByZero
  /-- A loop of the model used up its fuel. -/
  | diverge
  deriving DecidableEq

deriving instance DecidableEq for Except

/-- One variadic argument as the caller passed it. -/
inductive Arg where
  /-- A `const char *`: `none` is the null pointer, `some b` points at `b`. -/
  | str (p : Option (List Nat))
  /-- An `int` of the given value. -/
  | int (v : Int)
  /-- An `unsigned int` of the given value. -/
  | uint (v : Nat)
  deriving DecidableEq

/-- The bytes of an ASCII string literal, without its terminator. -/
def cstr (s : String) : List Nat := s.toList.map Char.toNat

/-! ## 32-bit integer arithmetic -/

/-- Smallest value of `int`. -/
def INT_MIN : Int := -2147483648

/-- Largest value of `int`. -/
def INT_MAX : Int := 2147483647

/-- Largest value of `unsigned int`. -/
def UINT_MAX : Nat := 4294967295

/-- Reduction of an integer to the `int` it wraps to modulo `2^32`. -/
def wrap32 (x : Int) : Int := (x + 2147483648) % 4294967296 - 2147483648

/-- Unary minus on `int`. -/
def neg32 (a : Int) : Int := wrap32 (-a)

/-- Addition on `int`. -/
def add32 (a b : Int) : Int := wrap32 (a + b)

/-- Multiplication on `int`. -/
def mul32 (a b : Int) : Int := wrap32 (a * b)

/-- Division on `int`, for a nonzero divisor. -/
def div32 (a b : Int) : Int := wrap32 (Int.tdiv a b)

/-- Remainder on `int`, for a nonzero divisor. -/
def mod32 (a b : Int) : Int := wrap32 (Int.tmod a b)

/-- Conversion of an `int` to `char`, as at the call `putchar(intExpr)`. -/
def toChar (x : Int) : Nat := (x % 256).toNat

/-! ## Variadic arguments

`va_arg(args, T)` takes the next argument.  It is defined when an argument is
left and its type is `T`, or when one of `int`, `unsigned int` is read as the
other and the value is representable in both. -/

/-- Model of `va_arg(args, const char *)`. -/
def va_arg_str : List Arg → Except Fault (Option (List Nat) × List Arg)
  | Arg.str p :: rest => .ok (p, rest)
  | _ => .error .badArg

/-- Model of `va_arg(args, int)`. -/
def va_arg_int : List Arg → Except Fault (Int × List Arg)
  | Arg.int v :: rest =>
    if INT_MIN ≤ v ∧ v ≤ INT_MAX then .ok (v, rest) else .error .badArg
  | Arg.uint v :: rest =>
    if (v : Int) ≤ INT_MAX then .ok ((v : Int), rest) else .error .badArg
  | _ => .error .badArg

/-- Model of `va_arg(args, unsigned int)`. -/
def va_arg_uint : List Arg → Except Fault (Nat × List Arg)
  | Arg.uint v :: rest =>
    if v ≤ UINT_MAX then .ok (v, rest) else .error .badArg
  | Arg.int v :: rest =>
    if 0 ≤ v ∧ v ≤ INT_MAX then .ok (v.toNat, rest) else .error .badArg
  | _ => .error .badArg

/-! ## The conversions of `printf` -/

/-- The string literal `"(null)"` with its terminator. -/
def nullStr : List Nat := cstr "(null)" ++ [0]

/-- The string literal `"0123456789abcdef"` with its terminator. -/
def hexTable : List Nat := cstr "0123456789abcdef" ++ [0]

/-- Model of `while (*s) { putchar(*s++); }` (common.c lines 33-35). -/
def putsLoop : List Nat → Except Fault (List Nat)
  | [] => .error .outOfBounds
  | c :: s => if c = 0 then .ok [] else (putsLoop s).map (fun o => c :: o)

/-- Model of `case 's'` (common.c lines 27-37) after the `va_arg`. -/
def fmtS (s : Option (List Nat)) : Except Fault (List Nat) :=
  putsLoop (match s with
    | none => nullStr
    | some b => b)

/-- Iterations granted to each of the two loops of `case 'd'`. -/
def intFuel : Nat := 16

/-- Model of `while ((value / divisor) >= 10) { divisor *= 10; }`
(common.c lines 53-55). -/
def divisorLoop : Nat → Int → Int → Except Fault Int
  | 0, _, _ => .error .diverge
  | fuel + 1, value, divisor =>
    if divisor = 0 then .error .divByZero
    else if div32 value divisor ≥ 10 then divisorLoop fuel value (mul32 divisor 10)
    else .ok divisor

/-- The products `divisor * 10` the loop of lines 53-55 computes, in order, as
integers before any reduction to 32 bits.  Same recursion as `divisorLoop`. -/
def divisorProducts : Nat → Int → Int → List Int
  | 0, _, _ => []
  | fuel + 1, value, divisor =>
    if divisor = 0 then []
    else if div32 value divisor ≥ 10 then
      divisor * 10 :: divisorProducts fuel value (mul32 divisor 10)
    else []

/-- Model of the digit loop `while (divisor > 0) { ... }`
(common.c lines 58-62). -/
def digitLoop : Nat → Int → Int → Except Fault (List Nat)
  | 0, _, _ => .error .diverge
  | fuel + 1, value, divisor =>
    if divisor > 0 then
      (digitLoop fuel (mod32 value divisor) (div32 divisor 10)).map
        (fun o => toChar (add32 48 (div32 value divisor)) :: o)
    else .ok []

/-- Model of `case 'd'` (common.c lines 39-64) after the `va_arg`. -/
def fmtD (value : Int) : Except Fault (List Nat) :=
  if value = 0 then .ok [48]
  else
    let sign : List Nat := if value < 0 then [45] else []
    let value1 : Int := if value < 0 then neg32 value else value
    match divisorLoop intFuel value1 1 with
    | .error f => .error f
    | .ok divisor =>
      match digitLoop intFuel value1 divisor with
      | .error f => .error f
      | .ok digits => .ok (sign ++ digits)

/-- Model of `for (int i = 7; i >= 0; i--) { ... }` (common.c lines 69-72).
The numeric argument is `i + 1`, so the loop is `hexLoop value 8`. -/
def hexLoop (value : Nat) : Nat → Except Fault (List Nat)
  | 0 => .ok []
  | i + 1 =>
    match hexTable[(value >>> (i * 4)) &&& 0xF]? with
    | none => .error .outOfBounds
    | some c => (hexLoop value i).map (fun o => c :: o)

/-- Model of `case 'x'` (common.c lines 66-74) after the `va_arg`. -/
def fmtX (value : Nat) : Except Fault (List Nat) := hexLoop value 8

/-! ## The scan loop of `printf` -/

/-- What one call of `printf` did. -/
structure Result where
  /-- Characters passed to `putchar`, in call order. -/
  out : List Nat
  /-- Variadic arguments not consumed. -/
  args : List Arg
  /-- Offset of `fmt` from its initial value when the loop is left. -/
  stop : Nat
  /-- Whether the loop was left by the `break` of lines 15-19. -/
  dangling : Bool
  deriving DecidableEq

/-- Result of a scan that first wrote `pre` and advanced `fmt` by `k`. -/
def Result.after (pre : List Nat) (k : Nat) (r : Result) : Result :=
  { r with out := pre ++ r.out, stop := r.stop + k }

/-- Model of `switch (*fmt) { ... }` (common.c lines 21-81) on the character
`d` after a `%`: the characters written and the arguments left. -/
def conversion (d : Nat) (args : List Arg) : Except Fault (List Nat × List Arg) :=
  if d = 37 then .ok ([37], args)
  else if d = 115 then
    match va_arg_str args with
    | .error f => .error f
    | .ok (s, args1) =>
      match fmtS s with
      | .error f => .error f
      | .ok o => .ok (o, args1)
  else if d = 100 then
    match va_arg_int args with
    | .error f => .error f
    | .ok (value, args1) =>
      match fmtD value with
      | .error f => .error f
      | .ok o => .ok (o, args1)
  else if d = 120 then
    match va_arg_uint args with
    | .error f => .error f
    | .ok (value, args1) =>
      match fmtX value with
      | .error f => .error f
      | .ok o => .ok (o, args1)
  else .ok ([37, d], args)

/-- Model of the loop `while (*fmt) { ... fmt++; }` (common.c lines 11-87).
The first argument is `fmt`. -/
def printfLoop : List Nat → List Arg → Except Fault Result
  | [], _ => .error .outOfBounds
  | c :: fmt1, args =>
    if c = 0 then .ok ⟨[], args, 0, false⟩
    else if c = 37 then
      match fmt1 with
      | [] => .error .outOfBounds
      | d :: fmt2 =>
        if d = 0 then .ok ⟨[37], args, 1, true⟩
        else
          match conversion d args with
          | .error f => .error f
          | .ok (o, args1) => (printfLoop fmt2 args1).map (Result.after o 2)
    else
      (printfLoop fmt1 args).map (Result.after [c] 1)

/-- Model of `printf(fmt, ...)` (common.c lines 6-90). -/
def printf (fmt : List Nat) (args : List Arg) : Except Fault Result :=
  printfLoop fmt args

/-- A template: the bytes of a string literal followed by the terminator. -/
def tmpl (s : String) : List Nat := cstr s ++ [0]

/-! ## The privileged call (kernel.c) -/

/-- Model of `struct sbiret` (kernel.h lines 4-7). -/
structure sbiret where
  /-- Field `error`. -/
  error : Int
  /-- Field `value`. -/
  value : Int
  deriving DecidableEq

/-- The argument registers as the `ecall` instruction finds them. -/
structure Regs where
  /-- Register `a0`. -/
  a0 : Int
  /-- Register `a1`. -/
  a1 : Int
  /-- Register `a2`. -/
  a2 : Int
  /-- Register `a3`. -/
  a3 : Int
  /-- Register `a4`. -/
  a4 : Int
  /-- Register `a5`. -/
  a5 : Int
  /-- Register `a6`. -/
  a6 : Int
  /-- Register `a7`. -/
  a7 : Int
  deriving DecidableEq

/-- The firmware: what it leaves in `a0` and `a1` for a given request. -/
abbrev Firmware := Regs → Int × Int

/-- The machine state the kernel code acts on: the `ecall` instructions
executed so far, oldest first, each with the registers it was given. -/
structure Machine where
  /-- Log of executed `ecall` instructions. -/
  ecalls : List Regs
  deriving DecidableEq

/-- One execution of the `ecall` instruction: the firmware runs on the
registers and its two outputs come back in `a0` and `a1`. -/
def ecall (F : Firmware) (r : Regs) (m : Machine) : (Int × Int) × Machine :=
  (F r, { ecalls := m.ecalls ++ [r] })

/-- Model of `sbi_call` (kernel.c lines 7-31). -/
def sbi_call (F : Firmware) (arg0 arg1 arg2 arg3 arg4 arg5 fid eid : Int)
    (m : Machine) : sbiret × Machine :=
  let regs : Regs :=
    { a0 := arg0, a1 := arg1, a2 := arg2, a3 := arg3, a4 := arg4, a5 := arg5,
      a6 := fid, a7 := eid }
  let res := ecall F regs m
  ({ error := res.1.1, value := res.1.2 }, res.2)

/-- Conversion of a `char` to `long`: zero extension of its eight bits. -/
def charToLong (ch : Nat) : Int := ((ch % 256 : Nat) : Int)

/-- Model of `putchar` (kernel.c lines 33-37). -/
def putchar (F : Firmware) (ch : Nat) (m : Machine) : Machine :=
  (sbi_call F (charToLong ch) 0 0 0 0 0 1 0 m).2

/-- The registers `putchar(ch)` hands to `sbi_call`. -/
def putcharReq (ch : Nat) : Regs := ⟨charToLong ch, 0, 0, 0, 0, 0, 1, 0⟩

/-- The calls `putchar(c)` for the characters `c` of a list, in order. -/
def emit (F : Firmware) (out : List Nat) (m : Machine) : Machine :=
  out.foldl (fun m1 c => putchar F c m1) m

/-! ## `printf` linked with the `putchar` of kernel.c

`common.c` only declares `putchar`; in the kernel image it is the function
of `kernel.c`.  The definitions below are the loops of `printf` again, with
every `putchar(c)` of the source acting on the machine where the definitions
above add `c` to the output list. -/

/-- The loop of lines 33-35 on the machine. -/
def putsLoopK (F : Firmware) : List Nat → Machine → Except Fault Machine
  | [], _ => .error .outOfBounds
  | c :: s, m => if c = 0 then .ok m else putsLoopK F s (putchar F c m)

/-- The code of `case 's'` on the machine. -/
def fmtSK (F : Firmware) (s : Option (List Nat)) (m : Machine) : Except Fault Machine :=
  putsLoopK F (match s with
    | none => nullStr
    | some b => b) m

/-- The digit loop of lines 58-62 on the machine. -/
def digitLoopK (F : Firmware) : Nat → Int → Int → Machine → Except Fault Machine
  | 0, _, _, _ => .error .diverge
  | fuel + 1, value, divisor, m =>
    if divisor > 0 then
      digitLoopK F fuel (mod32 value divisor) (div32 divisor 10)
        (putchar F (toChar (add32 48 (div32 value divisor))) m)
    else .ok m

/-- The code of `case 'd'` on the machine. -/
def fmtDK (F : Firmware) (value : Int) (m : Machine) : Except Fault Machine :=
  if value = 0 then .ok (putchar F 48 m)
  else
    let m1 : Machine := if value < 0 then putchar F 45 m else m
    let value1 : Int := if value < 0 then neg32 value else value
    match divisorLoop intFuel value1 1 with
    | .error f => .error f
    | .ok divisor => digitLoopK F intFuel value1 divisor m1

/-- The loop of lines 69-72 on the machine; the numeric argument is `i + 1`. -/
def hexLoopK (F : Firmware) (value : Nat) : Nat → Machine → Except Fault Machine
  | 0, m => .ok m
  | i + 1, m =>
    match hexTable[(value >>> (i * 4)) &&& 0xF]? with
    | none => .error .outOfBounds
    | some c => hexLoopK F value i (putchar F c m)

/-- The code of `case 'x'` on the machine. -/
def fmtXK (F : Firmware) (value : Nat) (m : Machine) : Except Fault Machine :=
  hexLoopK F value 8 m

/-- The `switch` of lines 21-81 on the machine: the arguments left and the
machine after it. -/
def conversionK (F : Firmware) (d : Nat) (args : List Arg) (m : Machine) :
    Except Fault (List Arg × Machine) :=
  if d = 37 then .ok (args, putchar F 37 m)
  else if d = 115 then
    match va_arg_str args with
    | .error f => .error f
    | .ok (s, args1) =>
      match fmtSK F s m with
      | .error f => .error f
      | .ok m1 => .ok (args1, m1)
  else if d = 100 then
    match va_arg_int args with
    | .error f => .error f
    | .ok (value, args1) =>
      match fmtDK F value m with
      | .error f => .error f
      | .ok m1 => .ok (args1, m1)
  else if d = 120 then
    match va_arg_uint args with
    | .error f => .error f
    | .ok (value, args1) =>
      match fmtXK F value m with
      | .error f => .error f
      | .ok m1 => .ok (args1, m1)
  else .ok (args, putchar F d (putchar F 37 m))

/-- The loop of lines 11-87 on the machine. -/
def printfLoopK (F : Firmware) : List Nat → List Arg → Machine → Except Fault Machine
  | [], _, _ => .error .outOfBounds
  | c :: fmt1, args, m =>
    if c = 0 then .ok m
    else if c = 37 then
      match fmt1 with
      | [] => .error .outOfBounds
      | d :: fmt2 =>
        if d = 0 then .ok (putchar F 37 m)
        else
          match conversionK F d args m with
          | .error f => .error f
          | .ok (args1, m1) => printfLoopK F fmt2 args1 m1
    else
      printfLoopK F fmt1 args (putchar F c m)

/-- The function `printf` with the `putchar` of kernel.c: the machine after the
call. -/
def printfK (F : Firmware) (fmt : List Nat) (args : List Arg) (m : Machine) :
    Except Fault Machine :=
  printfLoopK F fmt args m

/-! ## `kernel_main` (kernel.c lines 39-55)

`kernel_main` has a loop that never ends, so it is a step function on control
states rather than a function to a result. -/

/-- The string literal `"Hello, World!\n"` with its terminator. -/
def hello : List Nat := tmpl "Hello, World!\n"

/-- Control states of `kernel_main`. -/
inductive KState where
  /-- At the test `*p != 0` of the `for` loop, with the pointer `p`. -/
  | loop (p : List Nat) (m : Machine)
  /-- Inside `while (1) { wfi }`. -/
  | idle (m : Machine)
  /-- After the end of the function body. -/
  | returned (m : Machine)
  /-- Undefined behaviour was reached. -/
  | fault (f : Fault)
  deriving DecidableEq

/-- One step of `kernel_main`: one test of the `for` loop with the `putchar`
that follows it, or one `wfi` of the idle loop. -/
def kstep (F : Firmware) : KState → KState
  | .loop [] _ => .fault .outOfBounds
  | .loop (c :: p) m => if c = 0 then .idle m else .loop p (putchar F c m)
  | .idle m => .idle m
  | .returned m => .returned m
  | .fault f => .fault f

/-- The control state of `kernel_main`, entered on machine `m`, after `n`
steps. -/
def kernel_main (F : Firmware) (m : Machine) : Nat → KState
  | 0 => .loop hello m
  | n + 1 => kstep F (kernel_main F m n)

/-- The machine of a control state, when it has one. -/
def KState.machine : KState → Option Machine
  | .loop _ m => some m
  | .idle m => some m
  | .returned m => some m
  | .fault _ => none

/-! ## Who calls whom -/

/-- The functions of the four source files. -/
inductive Fn where
  /-- The function `_start` of start.c. -/
  | start
  /-- The function `kernel_main` of kernel.c. -/
  | kernel_main
  /-- The function `putchar` of kernel.c. -/
  | putchar
  /-- The function `sbi_call` of kernel.c. -/
  | sbi_call
  /-- The function `printf` of common.c. -/
  | printf
  deriving DecidableEq

/-- The functions whose calls occur in the body of a function. -/
def callees : Fn → List Fn
  | .start => [.kernel_main]
  | .kernel_main => [.putchar]
  | .putchar => [.sbi_call]
  | .sbi_call => []
  | .printf => [.putchar]

/-- Whether `g` is `f` or is reached from `f` by at most `n` nested calls. -/
def reaches : Nat → Fn → Fn → Bool
  | 0, f, g => decide (f = g)
  | n + 1, f, g => decide (f = g) || (callees f).any (fun h => reaches n h g)

/-! ## Reference notions used to state the properties -/

/-- Canonical decimal representation of an integer: `0` for zero, else an
optional minus sign and the decimal digits of the magnitude, most significant
first. -/
def decimal (v : Int) : List Nat :=
  if v = 0 then [48]
  else (if v < 0 then [45] else []) ++
    (Nat.digits 10 v.natAbs).reverse.map (fun d => 48 + d)

/-- The lowercase hexadecimal digit character of a nibble. -/
def hexChar (n : Nat) : Nat := if n < 10 then 48 + n else 87 + n

/-- Value of a lowercase hexadecimal digit character. -/
def hexVal (c : Nat) : Nat := if c ≤ 57 then c - 48 else c - 87

/-- Reading a list of hexadecimal digit characters as a base-16 number. -/
def readHex (l : List Nat) : Nat := l.foldl (fun acc c => acc * 16 + hexVal c) 0

/-! ### The directive view of a template (specification, sections 3 and 4.3)

The definitions of this part follow the words of the specification, not the
code: a template is cut into directives by the two-state scanner, and the
directives are rendered in order, the one that is the `k`-th to consume an
argument being given the `k`-th argument. -/

/-- The directives of the specification, and the `%` that ends a template. -/
inductive FormatDirective where
  /-- A character other than `%`, written as it is. -/
  | LiteralChar (c : Nat)
  /-- The directive `%%`. -/
  | PercentEscape
  /-- The directive `%s`. -/
  | StringArg
  /-- The directive `%d`. -/
  | DecimalArg
  /-- The directive `%x`. -/
  | HexArg
  /-- A `%` followed by a character that is no conversion. -/
  | UnknownEscape (c : Nat)
  /-- A `%` that is the last character of the template. -/
  | TrailingPercent
  deriving DecidableEq

/-- The directive that `%` followed by the character `d` denotes. -/
def classify (d : Nat) : FormatDirective :=
  if d = 37 then .PercentEscape
  else if d = 115 then .StringArg
  else if d = 100 then .DecimalArg
  else if d = 120 then .HexArg
  else .UnknownEscape d

/-- The scanner of the specification on the characters of a template before
its terminator: in the literal state a character other than `%` is a literal
and `%` leads to the state after a percent, where the end of the input gives
a trailing percent and any character gives its directive. -/
def directives : List Nat → List FormatDirective
  | [] => []
  | c :: rest =>
    if c = 37 then
      match rest with
      | [] => [.TrailingPercent]
      | d :: rest2 => classify d :: directives rest2
    else .LiteralChar c :: directives rest

/-- Whether a directive consumes an argument. -/
def FormatDirective.consumes : FormatDirective → Bool
  | .StringArg => true
  | .DecimalArg => true
  | .HexArg => true
  | _ => false

/-- What a directive writes: a consuming directive is given the argument it
consumes and writes what its conversion writes on that argument alone; the
others are given nothing. -/
def FormatDirective.render : FormatDirective → Option Arg → Except Fault (List Nat)
  | .LiteralChar c, _ => .ok [c]
  | .PercentEscape, _ => .ok [37]
  | .UnknownEscape c, _ => .ok [37, c]
  | .TrailingPercent, _ => .ok [37]
  | .StringArg, some a => (conversion 115 [a]).map Prod.fst
  | .DecimalArg, some a => (conversion 100 [a]).map Prod.fst
  | .HexArg, some a => (conversion 120 [a]).map Prod.fst
  | _, none => .error .badArg

/-- Rendering of a list of directives against the argument list `args`, when
`k` arguments have been consumed already: the next consuming directive is
given `args[k]`, the others consume nothing. -/
def renderFrom (args : List Arg) : Nat → List FormatDirective → Except Fault (List Nat)
  | _, [] => .ok []
  | k, d :: ds =>
    if d.consumes then
      match d.render args[k]? with
      | .error f => .error f
      | .ok o => (renderFrom args (k + 1) ds).map (fun x => o ++ x)
    else
      match d.render none with
      | .error f => .error f
      | .ok o => (renderFrom args k ds).map (fun x => o ++ x)

/-- Number of directives of a list that consume an argument. -/
def consumed (ds : List FormatDirective) : Nat := ds.countP FormatDirective.consumes

/-- Whether an argument is one the directive can take: a null pointer or a
terminated string for `%s`, a value of type `int` or `unsigned int` that both
types can represent, or one of the type itself, for `%d` and `%x`. -/
def argOk : FormatDirective → Arg → Bool
  | .StringArg, .str none => true
  | .StringArg, .str (some b) => decide (0 ∈ b)
  | .DecimalArg, .int v => decide (INT_MIN ≤ v ∧ v ≤ INT_MAX)
  | .DecimalArg, .uint v => decide ((v : Int) ≤ INT_MAX)
  | .HexArg, .uint v => decide (v ≤ UINT_MAX)
  | .HexArg, .int v => decide (0 ≤ v ∧ v ≤ INT_MAX)
  | _, _ => false

/-- Whether an argument list matches a list of directives: it supplies, in
order, an argument each consuming directive can take. -/
def argsMatch : List FormatDirective → List Arg → Bool
  | [], _ => true
  | d :: ds, args =>
    if d.consumes then
      match args with
      | [] => false
      | a :: rest => argOk d a && argsMatch ds rest
    else argsMatch ds args

/-- The digits of `m` at the places `10^k`, ..., `10^0`, highest first
(the top entry is the whole quotient `m / 10^k`). -/
def places : Nat → Nat → List Nat
  | 0, m => [m]
  | k + 1, m => m / 10 ^ (k + 1) :: places k (m % 10 ^ (k + 1))

end TinyCOS

namespace TinyCOS

/-! ## Arithmetic lemmas -/

theorem wrap32_of_range {x : Int} (h1 : -2147483648 ≤ x) (h2 : x ≤ 2147483647) :
    wrap32 x = x := by
  unfold wrap32
  omega

theorem tdiv_natCast (a b : Nat) : Int.tdiv (a : Int) (b : Int) = ((a / b : Nat) : Int) := rfl

theorem tmod_natCast (a b : Nat) : Int.tmod (a : Int) (b : Int) = ((a % b : Nat) : Int) := rfl

theorem div32_natCast {a : Nat} (b : Nat) (ha : a < 2147483648) :
    div32 (a : Int) (b : Int) = ((a / b : Nat) : Int) := by
  unfold div32
  rw [tdiv_natCast]
  have : a / b ≤ a := Nat.div_le_self a b
  generalize a / b = q at this ⊢
  apply wrap32_of_range <;> omega

theorem mod32_natCast {a : Nat} (b : Nat) (ha : a < 2147483648) :
    mod32 (a : Int) (b : Int) = ((a % b : Nat) : Int) := by
  unfold mod32
  rw [tmod_natCast]
  have : a % b ≤ a := Nat.mod_le a b
  generalize a % b = q at this ⊢
  apply wrap32_of_range <;> omega

theorem mul32_natCast {a b : Nat} (h : a * b < 2147483648) :
    mul32 (a : Int) (b : Int) = ((a * b : Nat) : Int) := by
  unfold mul32
  rw [← Nat.cast_mul]
  generalize a * b = q at h ⊢
  apply wrap32_of_range <;> omega

theorem toChar_digit {q : Nat} (hq : q < 10) : toChar (add32 48 (q : Int)) = 48 + q := by
  unfold toChar add32
  rw [wrap32_of_range (by omega) (by omega)]
  omega

/-! ## The two loops of the decimal conversion -/

/-- The divisor loop started at `10^j ≤ m` stops at the power of ten `10^k`
with `10^k ≤ m < 10^(k+1)`, given fuel for the remaining iterations. -/
theorem divisorLoop_pow (m : Nat) (hm : m < 2147483648) :
    ∀ (n j fuel : Nat), 10 ^ j ≤ m → m < 10 ^ (j + n + 1) → n < fuel →
      ∃ k, j ≤ k ∧ k ≤ j + n ∧ 10 ^ k ≤ m ∧ m < 10 ^ (k + 1) ∧
        divisorLoop fuel (m : Int) ((10 ^ j : Nat) : Int) = .ok ((10 ^ k : Nat) : Int) := by
  intro n
  induction n with
  | zero =>
    intro j fuel hj hlt hf
    obtain ⟨fuel, rfl⟩ : ∃ f, fuel = f + 1 := ⟨fuel - 1, by omega⟩
    refine ⟨j, le_refl _, le_refl _, hj, hlt, ?_⟩
    have hpos : 0 < 10 ^ j := Nat.pow_pos (by decide)
    have hq : m / 10 ^ j < 10 := by
      rw [Nat.div_lt_iff_lt_mul hpos]
      rw [Nat.add_zero, Nat.pow_succ] at hlt
      omega
    unfold divisorLoop
    rw [div32_natCast _ hm]
    rw [if_neg (by omega), if_neg (by omega)]
  | succ n ih =>
    intro j fuel hj hlt hf
    obtain ⟨fuel, rfl⟩ : ∃ f, fuel = f + 1 := ⟨fuel - 1, by omega⟩
    have hpos : 0 < 10 ^ j := Nat.pow_pos (by decide)
    by_cases hq : m / 10 ^ j < 10
    · refine ⟨j, le_refl _, by omega, hj, ?_, ?_⟩
      · rw [Nat.div_lt_iff_lt_mul hpos] at hq
        rw [Nat.pow_succ]
        omega
      · unfold divisorLoop
        rw [div32_natCast _ hm]
        rw [if_neg (by omega), if_neg (by omega)]
    · have hge : 10 ^ (j + 1) ≤ m := by
        rw [Nat.pow_succ]
        have := (Nat.le_div_iff_mul_le hpos).mp (Nat.le_of_not_lt hq)
        omega
      obtain ⟨k, hk1, hk2, hk3, hk4, hk5⟩ :=
        ih (j + 1) fuel hge (by rw [show j + 1 + n + 1 = j + (n + 1) + 1 by omega]; exact hlt)
          (by omega)
      refine ⟨k, by omega, by omega, hk3, hk4, ?_⟩
      unfold divisorLoop
      rw [div32_natCast _ hm]
      rw [if_neg (by omega), if_pos (by omega)]
      have h10 : ((10 : Nat) : Int) = 10 := rfl
      rw [← h10, mul32_natCast (by rw [← Nat.pow_succ]; omega), ← Nat.pow_succ]
      exact hk5

/-- The digit loop started at divisor `10^k` on a value below `10^(k+1)`
writes the digits of the value at the places `10^k`, ..., `10^0`. -/
theorem digitLoop_places :
    ∀ (k fuel m : Nat), m < 10 ^ (k + 1) → m < 2147483648 → 10 ^ k < 2147483648 →
      k + 1 < fuel →
      digitLoop fuel (m : Int) ((10 ^ k : Nat) : Int)
        = .ok ((places k m).map (fun d => 48 + d)) := by
  intro k
  induction k with
  | zero =>
    intro fuel m hlt hm _ hf
    obtain ⟨fuel, rfl⟩ : ∃ f, fuel = f + 2 := ⟨fuel - 2, by omega⟩
    have hm10 : m < 10 := by simpa using hlt
    have h10 : ((10 : Nat) : Int) = 10 := rfl
    unfold digitLoop
    rw [if_pos (by simp)]
    rw [← h10, div32_natCast _ hm, mod32_natCast _ hm, div32_natCast _ (by simp)]
    simp only [pow_zero, Nat.div_one, Nat.mod_one, Nat.reduceDiv, Nat.cast_zero]
    unfold digitLoop
    rw [if_neg (by simp)]
    simp only [Except.map, places, List.map_cons, List.map_nil]
    rw [toChar_digit hm10]
  | succ k ih =>
    intro fuel m hlt hm hk hf
    obtain ⟨fuel, rfl⟩ : ∃ f, fuel = f + 1 := ⟨fuel - 1, by omega⟩
    have hpos : 0 < 10 ^ (k + 1) := Nat.pow_pos (by decide)
    have hq : m / 10 ^ (k + 1) < 10 := by
      rw [Nat.div_lt_iff_lt_mul hpos]
      rw [Nat.pow_succ] at hlt
      omega
    have hr : m % 10 ^ (k + 1) < 10 ^ (k + 1) := Nat.mod_lt _ hpos
    have hr2 : m % 10 ^ (k + 1) < 2147483648 := lt_of_le_of_lt (Nat.mod_le _ _) hm
    have hk2 : 10 ^ k < 2147483648 := by
      rw [Nat.pow_succ] at hk
      omega
    have hdiv : 10 ^ (k + 1) / 10 = 10 ^ k := by
      rw [Nat.pow_succ, Nat.mul_div_cancel _ (by decide : 0 < 10)]
    have h10 : ((10 : Nat) : Int) = 10 := rfl
    unfold digitLoop
    rw [if_pos (by exact_mod_cast hpos)]
    rw [← h10, div32_natCast _ hm, mod32_natCast _ hm, div32_natCast _ hk, hdiv]
    rw [ih fuel (m % 10 ^ (k + 1)) hr hr2 hk2 (by omega)]
    simp only [Except.map, places, List.map_cons]
    rw [toChar_digit hq]

/-! ## Places and decimal digits -/

theorem places_length : ∀ (k m : Nat), (places k m).length = k + 1 := by
  intro k
  induction k with
  | zero => intro m; rfl
  | succ k ih => intro m; simp [places, ih]

theorem places_lt_ten : ∀ (k m : Nat), m < 10 ^ (k + 1) → ∀ d ∈ places k m, d < 10 := by
  intro k
  induction k with
  | zero =>
    intro m hlt d hd
    simp only [places, List.mem_singleton] at hd
    subst hd
    simpa using hlt
  | succ k ih =>
    intro m hlt d hd
    have hpos : 0 < 10 ^ (k + 1) := Nat.pow_pos (by decide)
    simp only [places, List.mem_cons] at hd
    rcases hd with rfl | hd
    · rw [Nat.div_lt_iff_lt_mul hpos]
      rw [Nat.pow_succ] at hlt
      omega
    · exact ih _ (Nat.mod_lt _ hpos) d hd

theorem ofDigits_places : ∀ (k m : Nat), Nat.ofDigits 10 (places k m).reverse = m := by
  intro k
  induction k with
  | zero => intro m; simp [places]
  | succ k ih =>
    intro m
    simp only [places, List.reverse_cons, Nat.ofDigits_append, Nat.ofDigits_singleton,
      List.length_reverse, places_length, ih]
    exact Nat.mod_add_div m (10 ^ (k + 1))

/-- Between `10^k` and `10^(k+1)` the places are the decimal digits. -/
theorem places_eq_digits (k m : Nat) (h1 : 10 ^ k ≤ m) (h2 : m < 10 ^ (k + 1)) :
    places k m = (Nat.digits 10 m).reverse := by
  have hd := Nat.digits_ofDigits 10 (by decide) (places k m).reverse
    (fun d hd => places_lt_ten k m h2 d (List.mem_reverse.mp hd))
    (fun hne => by
      have hpos : 0 < 10 ^ k := Nat.pow_pos (by decide)
      rw [List.getLast_reverse]
      cases k with
      | zero =>
        simp only [places, List.head_cons]
        simp at h1
        omega
      | succ k =>
        simp only [places, List.head_cons]
        exact Nat.ne_of_gt (Nat.div_pos h1 hpos))
  rw [ofDigits_places] at hd
  rw [hd, List.reverse_reverse]

/-! ## The decimal conversion -/

/-- On a magnitude `1 ≤ m < 2^31` the two loops of `case 'd'` finish within
the fuel and write the decimal digits of `m`. -/
theorem decimal_loops (m : Nat) (h1 : 0 < m) (hm : m < 2147483648) :
    ∃ d : Int, divisorLoop intFuel (m : Int) 1 = .ok d ∧
      digitLoop intFuel (m : Int) d
        = .ok ((Nat.digits 10 m).reverse.map (fun d => 48 + d)) := by
  obtain ⟨k, _, hk9, hk1, hk2, hk⟩ :=
    divisorLoop_pow m hm 9 0 intFuel (by simpa using h1) (by norm_num; omega)
      (by unfold intFuel; omega)
  refine ⟨((10 ^ k : Nat) : Int), by simpa using hk, ?_⟩
  rw [digitLoop_places k intFuel m hk2 hm (by omega) (by unfold intFuel; omega)]
  rw [places_eq_digits k m hk1 hk2]

/-- For every `int` other than `INT_MIN`, `case 'd'` writes the canonical
decimal representation. -/
theorem fmtD_eq_decimal (v : Int) (h1 : INT_MIN < v) (h2 : v ≤ INT_MAX) :
    fmtD v = .ok (decimal v) := by
  unfold INT_MIN at h1
  unfold INT_MAX at h2
  unfold fmtD decimal
  by_cases h0 : v = 0
  · rw [if_pos h0, if_pos h0]
  · rw [if_neg h0, if_neg h0]
    have hpos : 0 < v.natAbs := Int.natAbs_pos.mpr h0
    have hlt : v.natAbs < 2147483648 := by omega
    obtain ⟨d, hd1, hd2⟩ := decimal_loops v.natAbs hpos hlt
    have hval : (if v < 0 then neg32 v else v) = (v.natAbs : Int) := by
      by_cases hneg : v < 0
      · rw [if_pos hneg]
        unfold neg32
        rw [wrap32_of_range (by omega) (by omega)]
        omega
      · rw [if_neg hneg]
        omega
    simp only [hval, hd1, hd2]

/-- On every `int` the decimal conversion runs to its end within the fuel. -/
theorem fmtD_total (v : Int) (h1 : INT_MIN ≤ v) (h2 : v ≤ INT_MAX) :
    ∃ o, fmtD v = .ok o := by
  by_cases h : v = INT_MIN
  · subst h
    exact ⟨[45, 48], by decide⟩
  · exact ⟨decimal v, fmtD_eq_decimal v (lt_of_le_of_ne h1 (Ne.symm h)) h2⟩

/-! ## The hexadecimal conversion -/

theorem hexTable_get (n : Nat) (h : n < 16) : hexTable[n]? = some (hexChar n) := by
  interval_cases n <;> decide

theorem land_fifteen (x : Nat) : x &&& 0xF = x % 16 :=
  Nat.and_pow_two_sub_one_eq_mod x 4

theorem hexVal_hexChar (n : Nat) (h : n < 16) : hexVal (hexChar n) = n := by
  unfold hexVal hexChar
  split_ifs <;> omega

theorem hexChar_mem (n : Nat) (h : n < 16) : hexChar n ∈ cstr "0123456789abcdef" := by
  interval_cases n <;> decide

theorem hexLoop_succ (v i : Nat) :
    hexLoop v (i + 1)
      = (hexLoop v i).map (fun o => hexChar ((v >>> (i * 4)) &&& 0xF) :: o) := by
  have hlt : (v >>> (i * 4)) &&& 0xF < 16 := by
    rw [land_fifteen]
    exact Nat.mod_lt _ (by decide)
  rw [hexLoop, hexTable_get _ hlt]

/-- The hexadecimal conversion writes the eight nibbles, highest first. -/
theorem fmtX_eq (v : Nat) :
    fmtX v = .ok ((List.range 8).map
      (fun i => hexChar ((v >>> (4 * (7 - i))) &&& 0xF))) := by
  have h0 : hexLoop v 0 = .ok [] := rfl
  unfold fmtX
  rw [hexLoop_succ v 7, hexLoop_succ v 6, hexLoop_succ v 5, hexLoop_succ v 4,
    hexLoop_succ v 3, hexLoop_succ v 2, hexLoop_succ v 1, hexLoop_succ v 0, h0]
  rfl

/-! ## Steps of the scan loop -/

theorem map_map_except {α β γ : Type} (x : Except Fault α) (f : α → β) (g : β → γ) :
    (x.map f).map g = x.map (fun a => g (f a)) := by
  cases x <;> rfl

theorem map_eq_ok {α β : Type} {x : Except Fault α} {f : α → β} {b : β}
    (h : x.map f = .ok b) : ∃ a, x = .ok a ∧ f a = b := by
  cases x with
  | error e => simp [Except.map] at h
  | ok a =>
    simp only [Except.map, Except.ok.injEq] at h
    exact ⟨a, rfl, h⟩

theorem after_after (a b : List Nat) (j k : Nat) (r : Result) :
    Result.after a j (Result.after b k r) = Result.after (a ++ b) (k + j) r := by
  simp [Result.after, Nat.add_assoc]

theorem after_nil_zero (r : Result) : Result.after [] 0 r = r := by
  cases r
  rfl

theorem after_args (a : List Nat) (k : Nat) (r : Result) : (Result.after a k r).args = r.args :=
  rfl

theorem after_out (a : List Nat) (k : Nat) (r : Result) :
    (Result.after a k r).out = a ++ r.out :=
  rfl

theorem after_dangling (a : List Nat) (k : Nat) (r : Result) :
    (Result.after a k r).dangling = r.dangling :=
  rfl

theorem after_stop (a : List Nat) (k : Nat) (r : Result) :
    (Result.after a k r).stop = r.stop + k :=
  rfl

theorem printfLoop_end (rest : List Nat) (args : List Arg) :
    printfLoop (0 :: rest) args = .ok ⟨[], args, 0, false⟩ := by
  cases rest <;> simp [printfLoop]

theorem printfLoop_lit (c : Nat) (fmt : List Nat) (args : List Arg)
    (h0 : c ≠ 0) (h37 : c ≠ 37) :
    printfLoop (c :: fmt) args = (printfLoop fmt args).map (Result.after [c] 1) := by
  cases fmt <;> simp [printfLoop, h0, h37]

theorem printfLoop_dangling (rest : List Nat) (args : List Arg) :
    printfLoop (37 :: 0 :: rest) args = .ok ⟨[37], args, 1, true⟩ := by
  simp [printfLoop]

theorem printfLoop_conv (d : Nat) (fmt : List Nat) (args : List Arg) (h0 : d ≠ 0) :
    printfLoop (37 :: d :: fmt) args =
      match conversion d args with
      | .error f => .error f
      | .ok (o, args1) => (printfLoop fmt args1).map (Result.after o 2) := by
  simp [printfLoop, h0]

/-- Scanning is compositional: when the scan of `t` alone ends at its
terminator in the literal state with result `r`, the scan of `t ++ u`
continues on `u` from the arguments `r` left, after the output of `r`. -/
theorem printfLoop_append :
    ∀ (n : Nat) (t : List Nat) (args : List Arg) (r : Result), t.length ≤ n →
      0 ∉ t → printfLoop (t ++ [0]) args = .ok r → r.dangling = false →
      ∀ u, printfLoop (t ++ u) args
        = (printfLoop u r.args).map (Result.after r.out t.length) := by
  intro n
  induction n using Nat.strong_induction_on with
  | _ n ih =>
    intro t args r hn ht hr hd u
    match t, hn, ht, hr with
    | [], _, _, hr =>
      rw [List.nil_append, printfLoop_end] at hr
      cases hr
      simp only [List.nil_append, List.length_nil]
      cases printfLoop u args <;> simp [Except.map, after_nil_zero]
    | c :: t1, hn, ht, hr =>
      have hc0 : c ≠ 0 := fun h => ht (by simp [h])
      have ht1 : 0 ∉ t1 := fun h => ht (List.mem_cons_of_mem _ h)
      by_cases hc : c = 37
      · subst hc
        match t1, hn, ht1, hr with
        | [], _, _, hr =>
          rw [List.cons_append, List.nil_append, printfLoop_dangling] at hr
          cases hr
          simp at hd
        | d :: t2, hn, ht1, hr =>
          have hd0 : d ≠ 0 := fun h => ht1 (by simp [h])
          have ht2 : 0 ∉ t2 := fun h => ht1 (List.mem_cons_of_mem _ h)
          simp only [List.cons_append] at hr ⊢
          rw [printfLoop_conv _ _ _ hd0] at hr ⊢
          cases hconv : conversion d args with
          | error f => simp [hconv] at hr
          | ok p =>
            obtain ⟨o, args1⟩ := p
            simp only [hconv] at hr ⊢
            obtain ⟨r1, hr1, hr1r⟩ := map_eq_ok hr
            subst hr1r
            have := ih (n - 2) (by simp at hn; omega) t2 args1 r1 (by simp at hn; omega)
              ht2 hr1 hd u
            rw [this, map_map_except, after_args, after_out]
            generalize printfLoop u r1.args = x
            cases x <;> simp [Except.map, after_after, Nat.add_assoc]
      · simp only [List.cons_append] at hr ⊢
        rw [printfLoop_lit _ _ _ hc0 hc] at hr ⊢
        obtain ⟨r1, hr1, hr1r⟩ := map_eq_ok hr
        subst hr1r
        have := ih (n - 1) (by simp at hn; omega) t1 args r1 (by simp at hn; omega)
          ht1 hr1 hd u
        rw [this, map_map_except, after_args, after_out]
        generalize printfLoop u r1.args = x
        cases x <;> simp [Except.map, after_after]

/-- Bytes after the terminator of the template do not matter to the scan. -/
theorem printfLoop_rest :
    ∀ (n : Nat) (t : List Nat) (args : List Arg) (rest : List Nat), t.length ≤ n → 0 ∉ t →
      printfLoop (t ++ 0 :: rest) args = printfLoop (t ++ [0]) args := by
  intro n
  induction n using Nat.strong_induction_on with
  | _ n ih =>
    intro t args rest hn ht
    match t, hn, ht with
    | [], _, _ => simp only [List.nil_append, printfLoop_end]
    | c :: t1, hn, ht =>
      have hc0 : c ≠ 0 := fun h => ht (by simp [h])
      have ht1 : 0 ∉ t1 := fun h => ht (List.mem_cons_of_mem _ h)
      by_cases hc : c = 37
      · subst hc
        match t1, hn, ht1 with
        | [], _, _ => simp only [List.cons_append, List.nil_append, printfLoop_dangling]
        | d :: t2, hn, ht1 =>
          have hd0 : d ≠ 0 := fun h => ht1 (by simp [h])
          have ht2 : 0 ∉ t2 := fun h => ht1 (List.mem_cons_of_mem _ h)
          simp only [List.cons_append]
          rw [printfLoop_conv _ _ _ hd0, printfLoop_conv _ _ _ hd0]
          cases hconv : conversion d args with
          | error f => rfl
          | ok p =>
            obtain ⟨o, args1⟩ := p
            simp only []
            rw [ih (n - 2) (by simp at hn; omega) t2 args1 rest (by simp at hn; omega) ht2]
      · simp only [List.cons_append]
        rw [printfLoop_lit _ _ _ hc0 hc, printfLoop_lit _ _ _ hc0 hc]
        rw [ih (n - 1) (by simp at hn; omega) t1 args rest (by simp at hn; omega) ht1]

theorem printf_append (t : List Nat) (args : List Arg) (r : Result) (ht : 0 ∉ t)
    (hr : printf (t ++ [0]) args = .ok r) (hd : r.dangling = false) (u : List Nat) :
    printf (t ++ u) args = (printf u r.args).map (Result.after r.out t.length) :=
  printfLoop_append t.length t args r (le_refl _) ht hr hd u

/-! ## The conversions, one by one -/

theorem conversion_percent (args : List Arg) : conversion 37 args = .ok ([37], args) := by
  simp [conversion]

theorem conversion_unknown (d : Nat) (args : List Arg)
    (h : d ≠ 37 ∧ d ≠ 115 ∧ d ≠ 100 ∧ d ≠ 120) :
    conversion d args = .ok ([37, d], args) := by
  simp [conversion, h.1, h.2.1, h.2.2.1, h.2.2.2]

theorem putsLoop_cstring (s rest : List Nat) (hs : 0 ∉ s) :
    putsLoop (s ++ 0 :: rest) = .ok s := by
  induction s with
  | nil => simp [putsLoop]
  | cons c s ih =>
    have hc0 : c ≠ 0 := fun h => hs (by simp [h])
    have hs1 : 0 ∉ s := fun h => hs (List.mem_cons_of_mem _ h)
    rw [List.cons_append, putsLoop, if_neg hc0, ih hs1]
    rfl

theorem conversion_s (p : Option (List Nat)) (args : List Arg) :
    conversion 115 (Arg.str p :: args) =
      match fmtS p with
      | .error f => .error f
      | .ok o => .ok (o, args) := by
  simp [conversion, va_arg_str]

theorem conversion_d (v : Int) (args : List Arg) (h1 : INT_MIN ≤ v) (h2 : v ≤ INT_MAX) :
    conversion 100 (Arg.int v :: args) =
      match fmtD v with
      | .error f => .error f
      | .ok o => .ok (o, args) := by
  simp [conversion, va_arg_int, h1, h2]

theorem conversion_x (v : Nat) (args : List Arg) (h : v ≤ UINT_MAX) :
    conversion 120 (Arg.uint v :: args) =
      match fmtX v with
      | .error f => .error f
      | .ok o => .ok (o, args) := by
  simp [conversion, va_arg_uint, h]

theorem conversion_d_uint (v : Nat) (args : List Arg) (h : (v : Int) ≤ INT_MAX) :
    conversion 100 (Arg.uint v :: args) =
      match fmtD (v : Int) with
      | .error f => .error f
      | .ok o => .ok (o, args) := by
  simp [conversion, va_arg_int, h]

theorem conversion_x_int (v : Int) (args : List Arg) (h1 : 0 ≤ v) (h2 : v ≤ INT_MAX) :
    conversion 120 (Arg.int v :: args) =
      match fmtX v.toNat with
      | .error f => .error f
      | .ok o => .ok (o, args) := by
  simp [conversion, va_arg_uint, h1, h2]

/-- For every `int` other than `INT_MIN`, `printf("%d", v)` writes the
canonical decimal representation of `v` and consumes its argument. -/
theorem printf_d_of_ne_int_min (v : Int) (args : List Arg) (h1 : INT_MIN < v)
    (h2 : v ≤ INT_MAX) :
    printf (tmpl "%d") (Arg.int v :: args) = .ok ⟨decimal v, args, 2, false⟩ := by
  have ht : tmpl "%d" = [37, 100, 0] := by decide
  rw [ht, printf, printfLoop_conv _ _ _ (by decide), conversion_d v args (le_of_lt h1) h2,
    fmtD_eq_decimal v h1 h2]
  simp [printfLoop_end, Except.map, Result.after]

/-! ## The claims -/

/-- C1 (fails at `INT_MIN`): `printf("%d", v)` is claimed to write the
canonical decimal representation of every `int` `v`.  At the smallest `int`,
with arithmetic modulo `2^32`, the code writes `-0`, whereas the canonical
representation is `-2147483648`. -/
theorem printf_d_int_min :
    printf (tmpl "%d") [Arg.int INT_MIN] = .ok ⟨cstr "-0", [], 2, false⟩ ∧
      decimal INT_MIN = cstr "-2147483648" ∧
      cstr "-0" ≠ decimal INT_MIN := by
  have hdec : decimal INT_MIN = cstr "-2147483648" := by
    simp [decimal, INT_MIN]
    decide
  refine ⟨by decide, hdec, ?_⟩
  rw [hdec]
  decide

/-- C2: for every `unsigned int` `v`, `printf("%x", v)` writes exactly eight
characters, the `i`-th being the character of `"0123456789abcdef"` at index
`(v >> (4*(7-i))) & 0xF`; all are lowercase hexadecimal digits and read back
as a base-16 number they give `v`. -/
theorem printf_x_spec (v : Nat) (hv : v ≤ UINT_MAX) :
    ∃ out : List Nat,
      printf (tmpl "%x") [Arg.uint v] = .ok ⟨out, [], 2, false⟩ ∧
      out.length = 8 ∧
      (∀ i, i < 8 →
        out[i]? = (cstr "0123456789abcdef")[(v >>> (4 * (7 - i))) &&& 0xF]?) ∧
      (∀ c ∈ out, c ∈ cstr "0123456789abcdef") ∧
      readHex out = v := by
  have hnib : ∀ x : Nat, x &&& 0xF < 16 := fun x => by
    rw [land_fifteen]
    exact Nat.mod_lt _ (by decide)
  have htab : ∀ n, n < 16 → (cstr "0123456789abcdef")[n]? = some (hexChar n) := by
    intro n hn
    interval_cases n <;> decide
  refine ⟨(List.range 8).map (fun i => hexChar ((v >>> (4 * (7 - i))) &&& 0xF)),
    ?_, by simp, ?_, ?_, ?_⟩
  · have ht : tmpl "%x" = [37, 120, 0] := by decide
    rw [ht, printf, printfLoop_conv _ _ _ (by decide), conversion_x v [] hv, fmtX_eq]
    simp [printfLoop_end, Except.map, Result.after]
  · intro i hi
    rw [htab _ (hnib _)]
    simp [List.getElem?_map, List.getElem?_range hi]
  · intro c hc
    obtain ⟨i, _, rfl⟩ := List.mem_map.mp hc
    exact hexChar_mem _ (hnib _)
  · have hr : List.range 8 = [0, 1, 2, 3, 4, 5, 6, 7] := by decide
    have hhv : ∀ x : Nat, hexVal (hexChar (x % 16)) = x % 16 := fun x =>
      hexVal_hexChar _ (Nat.mod_lt _ (by decide))
    unfold UINT_MAX at hv
    rw [hr]
    simp only [List.map_cons, List.map_nil, readHex, List.foldl_cons, List.foldl_nil,
      land_fifteen, Nat.shiftRight_eq_div_pow, hhv]
    norm_num
    omega

/-- Instance of C2 at `v = 255`. -/
theorem printf_x_spec_witness :
    255 ≤ UINT_MAX ∧
    ∃ out : List Nat,
      printf (tmpl "%x") [Arg.uint 255] = .ok ⟨out, [], 2, false⟩ ∧
      out.length = 8 ∧
      (∀ i, i < 8 →
        out[i]? = (cstr "0123456789abcdef")[(255 >>> (4 * (7 - i))) &&& 0xF]?) ∧
      (∀ c ∈ out, c ∈ cstr "0123456789abcdef") ∧
      readHex out = 255 :=
  ⟨by decide, printf_x_spec 255 (by decide)⟩

/-- C3: `printf("%s", p)` writes `(null)` when `p` is the null pointer, and
when `p` points at the string `s` (bytes without a zero, then the terminator,
then anything) it writes exactly the bytes of `s`, whatever they are; in both
cases exactly the one argument is consumed. -/
theorem printf_s_spec (s rest : List Nat) (args : List Arg) (hs : 0 ∉ s) :
    printf (tmpl "%s") (Arg.str none :: args) = .ok ⟨cstr "(null)", args, 2, false⟩ ∧
      printf (tmpl "%s") (Arg.str (some (s ++ 0 :: rest)) :: args)
        = .ok ⟨s, args, 2, false⟩ := by
  have ht : tmpl "%s" = [37, 115, 0] := by decide
  have hnull : fmtS none = .ok (cstr "(null)") := by decide
  have hsome : fmtS (some (s ++ 0 :: rest)) = .ok s := putsLoop_cstring s rest hs
  constructor
  · rw [ht, printf, printfLoop_conv _ _ _ (by decide), conversion_s, hnull]
    simp [printfLoop_end, Except.map, Result.after]
  · rw [ht, printf, printfLoop_conv _ _ _ (by decide), conversion_s, hsome]
    simp [printfLoop_end, Except.map, Result.after]

/-- Instance of C3 at the string `hi%d`, followed in memory by a byte `7`,
with one further argument left over. -/
theorem printf_s_spec_witness :
    0 ∉ cstr "hi%d" ∧
    (printf (tmpl "%s") (Arg.str none :: [Arg.int 1])
        = .ok ⟨cstr "(null)", [Arg.int 1], 2, false⟩ ∧
      printf (tmpl "%s") (Arg.str (some (cstr "hi%d" ++ 0 :: [7])) :: [Arg.int 1])
        = .ok ⟨cstr "hi%d", [Arg.int 1], 2, false⟩) :=
  ⟨by decide, printf_s_spec (cstr "hi%d") [7] [Arg.int 1] (by decide)⟩

/-- C4: when the scan of `t` alone ends in the literal state with result `r`,
the template `t` followed by a last `%` writes the output of `r` and then one
`%`, consumes no further argument, and leaves the loop with `fmt` on the
terminator; the bytes `rest` after the terminator have no influence, and
there may be none. -/
theorem printf_dangling_percent (t rest : List Nat) (args : List Arg) (r : Result)
    (ht : 0 ∉ t) (hr : printf (t ++ [0]) args = .ok r) (hd : r.dangling = false) :
    printf (t ++ 37 :: 0 :: rest) args
      = .ok ⟨r.out ++ [37], r.args, t.length + 1, true⟩ := by
  rw [printf_append t args r ht hr hd, printf, printfLoop_dangling]
  simp [Except.map, Result.after, Nat.add_comm]

/-- Instance of C4 at the template `abc%` with nothing after its terminator. -/
theorem printf_dangling_percent_witness :
    0 ∉ cstr "abc" ∧
    printf (cstr "abc" ++ [0]) [] = .ok ⟨cstr "abc", [], 3, false⟩ ∧
    (⟨cstr "abc", [], 3, false⟩ : Result).dangling = false ∧
    printf (cstr "abc" ++ 37 :: 0 :: []) []
      = .ok ⟨(⟨cstr "abc", [], 3, false⟩ : Result).out ++ [37],
          (⟨cstr "abc", [], 3, false⟩ : Result).args, (cstr "abc").length + 1, true⟩ :=
  ⟨by decide, by decide, rfl,
    printf_dangling_percent (cstr "abc") [] [] ⟨cstr "abc", [], 3, false⟩
      (by decide) (by decide) rfl⟩

/-- C5: for a character `c` other than `%`, `s`, `d`, `x` and the terminator,
`%c` read in the literal state writes `%` and `c` and consumes nothing: the
rest `u` of the template is scanned from the same arguments `r.args` as when
the two characters are not there, and the output differs by the inserted
`%c` only. -/
theorem printf_unknown_conversion (c : Nat) (t u : List Nat) (args : List Arg) (r : Result)
    (hc : c ≠ 0 ∧ c ≠ 37 ∧ c ≠ 115 ∧ c ≠ 100 ∧ c ≠ 120)
    (ht : 0 ∉ t) (hr : printf (t ++ [0]) args = .ok r) (hd : r.dangling = false) :
    printf (t ++ 37 :: c :: u) args
        = (printf u r.args).map (Result.after (r.out ++ [37, c]) (t.length + 2)) ∧
      printf (t ++ u) args = (printf u r.args).map (Result.after r.out t.length) := by
  refine ⟨?_, printf_append t args r ht hr hd u⟩
  rw [printf_append t args r ht hr hd, printf, printfLoop_conv _ _ _ hc.1,
    conversion_unknown c r.args hc.2]
  simp only [map_map_except, after_after, printf]
  rw [Nat.add_comm]

/-- Instance of C5: `%q` in front of `%d` with the argument `5`. -/
theorem printf_unknown_conversion_witness :
    (113 ≠ 0 ∧ 113 ≠ 37 ∧ 113 ≠ 115 ∧ 113 ≠ 100 ∧ 113 ≠ 120) ∧
    0 ∉ ([] : List Nat) ∧
    printf ([] ++ [0]) [Arg.int 5] = .ok ⟨[], [Arg.int 5], 0, false⟩ ∧
    (printf ([] ++ 37 :: 113 :: tmpl "%d") [Arg.int 5]
        = (printf (tmpl "%d") [Arg.int 5]).map (Result.after ([] ++ [37, 113]) (0 + 2)) ∧
      printf ([] ++ tmpl "%d") [Arg.int 5]
        = (printf (tmpl "%d") [Arg.int 5]).map (Result.after [] 0)) :=
  ⟨by decide, by decide, by decide,
    printf_unknown_conversion 113 [] (tmpl "%d") [Arg.int 5] ⟨[], [Arg.int 5], 0, false⟩
      (by decide) (by decide) (by decide) rfl⟩

/-- C6: for every character code `c` below 256, `putchar(c)` is one
`sbi_call`, whose result is dropped, and that call executes exactly one
`ecall`, with `a0 = c`, `a1` to `a5` zero, `a6 = 1` (fid) and `a7 = 0`
(eid). -/
theorem putchar_spec (F : Firmware) (c : Nat) (m : Machine) (hc : c < 256) :
    putchar F c m = (sbi_call F (c : Int) 0 0 0 0 0 1 0 m).2 ∧
      (putchar F c m).ecalls = m.ecalls ++ [⟨(c : Int), 0, 0, 0, 0, 0, 1, 0⟩] := by
  have h : charToLong c = (c : Int) := by
    unfold charToLong
    rw [Nat.mod_eq_of_lt hc]
  unfold putchar
  rw [h]
  exact ⟨rfl, rfl⟩

/-- Instance of C6 at the character code 200, on a machine that has already
executed one `ecall`. -/
theorem putchar_spec_witness :
    200 < 256 ∧
    (putchar (fun _ => (1, 2)) 200 ⟨[⟨65, 0, 0, 0, 0, 0, 1, 0⟩]⟩
        = (sbi_call (fun _ => (1, 2)) ((200 : Nat) : Int) 0 0 0 0 0 1 0
            ⟨[⟨65, 0, 0, 0, 0, 0, 1, 0⟩]⟩).2 ∧
      (putchar (fun _ => (1, 2)) 200 ⟨[⟨65, 0, 0, 0, 0, 0, 1, 0⟩]⟩).ecalls
        = (⟨[⟨65, 0, 0, 0, 0, 0, 1, 0⟩]⟩ : Machine).ecalls
            ++ [⟨((200 : Nat) : Int), 0, 0, 0, 0, 0, 1, 0⟩]) :=
  ⟨by decide, putchar_spec (fun _ => (1, 2)) 200 ⟨[⟨65, 0, 0, 0, 0, 0, 1, 0⟩]⟩ (by decide)⟩

/-! ### The scan against the directive view -/

theorem conversion_plain (d : Nat) (l : List Arg) (h : (classify d).consumes = false) :
    ∃ o, (classify d).render none = .ok o ∧ conversion d l = .ok (o, l) := by
  unfold classify at h ⊢
  by_cases h1 : d = 37
  · exact ⟨[37], by simp [h1, FormatDirective.render], by simp [h1, conversion]⟩
  · by_cases h2 : d = 115
    · simp [h2, FormatDirective.consumes] at h
    · by_cases h3 : d = 100
      · simp [h3, FormatDirective.consumes] at h
      · by_cases h4 : d = 120
        · simp [h4, FormatDirective.consumes] at h
        · exact ⟨[37, d], by simp [h1, h2, h3, h4, FormatDirective.render],
            by simp [h1, h2, h3, h4, conversion]⟩

theorem consuming_cases (d : Nat) (h : (classify d).consumes = true) :
    d = 115 ∨ d = 100 ∨ d = 120 := by
  unfold classify at h
  by_cases h1 : d = 37
  · simp [h1, FormatDirective.consumes] at h
  · by_cases h2 : d = 115
    · exact Or.inl h2
    · by_cases h3 : d = 100
      · exact Or.inr (Or.inl h3)
      · by_cases h4 : d = 120
        · exact Or.inr (Or.inr h4)
        · simp [h1, h2, h3, h4, FormatDirective.consumes] at h

theorem conversion_consuming_nil (d : Nat) (h : (classify d).consumes = true) :
    conversion d [] = .error .badArg ∧ (classify d).render none = .error .badArg := by
  rcases consuming_cases d h with rfl | rfl | rfl <;>
    simp [conversion, classify, FormatDirective.render, va_arg_str, va_arg_int, va_arg_uint]

theorem conversion_head (d : Nat) (a : Arg) (rest : List Arg)
    (h : d = 115 ∨ d = 100 ∨ d = 120) :
    conversion d (a :: rest) =
      match conversion d [a] with
      | .error f => .error f
      | .ok p => .ok (p.1, rest) := by
  rcases h with rfl | rfl | rfl
  · cases a with
    | str p =>
      rw [conversion_s, conversion_s]
      cases fmtS p <;> rfl
    | int v => simp [conversion, va_arg_str]
    | uint v => simp [conversion, va_arg_str]
  · cases a with
    | str p => simp [conversion, va_arg_int]
    | int v =>
      by_cases hv : INT_MIN ≤ v ∧ v ≤ INT_MAX
      · rw [conversion_d _ _ hv.1 hv.2, conversion_d _ _ hv.1 hv.2]
        cases fmtD v <;> rfl
      · simp [conversion, va_arg_int, hv]
    | uint v =>
      by_cases hv : (v : Int) ≤ INT_MAX
      · rw [conversion_d_uint _ _ hv, conversion_d_uint _ _ hv]
        cases fmtD (v : Int) <;> rfl
      · simp [conversion, va_arg_int, hv]
  · cases a with
    | str p => simp [conversion, va_arg_uint]
    | int v =>
      by_cases hv : 0 ≤ v ∧ v ≤ INT_MAX
      · rw [conversion_x_int _ _ hv.1 hv.2, conversion_x_int _ _ hv.1 hv.2]
        cases fmtX v.toNat <;> rfl
      · simp [conversion, va_arg_uint, hv]
    | uint v =>
      by_cases hv : v ≤ UINT_MAX
      · rw [conversion_x _ _ hv, conversion_x _ _ hv]
        cases fmtX v <;> rfl
      · simp [conversion, va_arg_uint, hv]

theorem render_some (d : Nat) (a : Arg) (h : d = 115 ∨ d = 100 ∨ d = 120) :
    (classify d).render (some a) = (conversion d [a]).map Prod.fst := by
  rcases h with rfl | rfl | rfl <;> rfl

theorem conversion_consuming_cons (d : Nat) (a : Arg) (rest : List Arg)
    (h : (classify d).consumes = true) :
    conversion d (a :: rest) =
      match (classify d).render (some a) with
      | .error f => .error f
      | .ok o => .ok (o, rest) := by
  have hd := consuming_cases d h
  rw [conversion_head d a rest hd, render_some d a hd]
  cases conversion d [a] <;> rfl

theorem proj_after (x : Except Fault Result) (o : List Nat) (j : Nat) :
    (x.map (Result.after o j)).map (fun r => (r.out, r.args))
      = (x.map (fun r => (r.out, r.args))).map (fun p => (o ++ p.1, p.2)) := by
  cases x <;> rfl

theorem directives_cons_cons (d : Nat) (t : List Nat) :
    directives (37 :: d :: t) = classify d :: directives t := by
  simp [directives]

theorem directives_lit (c : Nat) (t : List Nat) (h : c ≠ 37) :
    directives (c :: t) = .LiteralChar c :: directives t := by
  cases t <;> simp [directives, h]

theorem renderFrom_consuming (args : List Arg) (k : Nat) (d : FormatDirective)
    (ds : List FormatDirective) (h : d.consumes = true) :
    renderFrom args k (d :: ds) =
      match d.render args[k]? with
      | .error f => .error f
      | .ok o => (renderFrom args (k + 1) ds).map (fun x => o ++ x) := by
  rw [renderFrom, if_pos h]

theorem renderFrom_plain (args : List Arg) (k : Nat) (d : FormatDirective)
    (ds : List FormatDirective) (h : d.consumes = false) :
    renderFrom args k (d :: ds) =
      match d.render none with
      | .error f => .error f
      | .ok o => (renderFrom args k ds).map (fun x => o ++ x) := by
  rw [renderFrom, if_neg (by simp [h])]

theorem consumed_cons_true (d : FormatDirective) (ds : List FormatDirective)
    (h : d.consumes = true) : consumed (d :: ds) = consumed ds + 1 := by
  simp [consumed, List.countP_cons, h]

theorem consumed_cons_false (d : FormatDirective) (ds : List FormatDirective)
    (h : d.consumes = false) : consumed (d :: ds) = consumed ds := by
  simp [consumed, List.countP_cons, h]

/-- The scan of a template from the arguments left after `k` of them agrees
with the rendering of its directives from index `k`, in what is written and
in what is left of the arguments. -/
theorem printfLoop_directives (args : List Arg) :
    ∀ (n : Nat) (t : List Nat) (k : Nat), t.length ≤ n → 0 ∉ t →
      (printfLoop (t ++ [0]) (args.drop k)).map (fun r => (r.out, r.args))
        = (renderFrom args k (directives t)).map
            (fun o => (o, args.drop (k + consumed (directives t)))) := by
  intro n
  induction n using Nat.strong_induction_on with
  | _ n ih =>
    intro t k hn ht
    match t, hn, ht with
    | [], _, _ =>
      rw [List.nil_append, printfLoop_end]
      simp [directives, renderFrom, consumed, Except.map]
    | c :: t1, hn, ht =>
      have hc0 : c ≠ 0 := fun h => ht (by simp [h])
      have ht1 : 0 ∉ t1 := fun h => ht (List.mem_cons_of_mem _ h)
      by_cases hc : c = 37
      · subst hc
        match t1, hn, ht1 with
        | [], _, _ =>
          rw [List.cons_append, List.nil_append, printfLoop_dangling]
          simp [directives, renderFrom, consumed, Except.map, FormatDirective.consumes,
            FormatDirective.render]
        | d :: t2, hn, ht1 =>
          have hd0 : d ≠ 0 := fun h => ht1 (by simp [h])
          have ht2 : 0 ∉ t2 := fun h => ht1 (List.mem_cons_of_mem _ h)
          have hlen : t2.length ≤ n - 2 := by simp at hn; omega
          have hlt : n - 2 < n := by simp at hn; omega
          simp only [List.cons_append]
          rw [printfLoop_conv _ _ _ hd0, directives_cons_cons]
          cases hcons : (classify d).consumes with
          | true =>
            rw [renderFrom_consuming _ _ _ _ hcons, consumed_cons_true _ _ hcons]
            by_cases hk : k < args.length
            · rw [List.drop_eq_getElem_cons hk, List.getElem?_eq_getElem hk,
                conversion_consuming_cons _ _ _ hcons]
              cases (classify d).render (some args[k]) with
              | error f => rfl
              | ok o =>
                simp only []
                rw [proj_after, ih (n - 2) hlt t2 (k + 1) hlen ht2]
                rw [show k + 1 + consumed (directives t2) = k + (consumed (directives t2) + 1)
                  by omega]
                generalize renderFrom args (k + 1) (directives t2) = y
                cases y <;> rfl
            · have hnil : args.drop k = [] := List.drop_eq_nil_of_le (by omega)
              have hnone : args[k]? = none := List.getElem?_eq_none (by omega)
              rw [hnil, hnone, (conversion_consuming_nil d hcons).1,
                (conversion_consuming_nil d hcons).2]
              rfl
          | false =>
            obtain ⟨o, ho1, ho2⟩ := conversion_plain d (args.drop k) hcons
            rw [renderFrom_plain _ _ _ _ hcons, consumed_cons_false _ _ hcons, ho1, ho2]
            simp only []
            rw [proj_after, ih (n - 2) hlt t2 k hlen ht2]
            generalize renderFrom args k (directives t2) = y
            cases y <;> rfl
      · have hlen : t1.length ≤ n - 1 := by simp at hn; omega
        have hlt : n - 1 < n := by simp at hn; omega
        simp only [List.cons_append]
        have hlc : (FormatDirective.LiteralChar c).consumes = false := rfl
        rw [printfLoop_lit _ _ _ hc0 hc, directives_lit _ _ hc,
          renderFrom_plain _ _ _ _ hlc, consumed_cons_false _ _ hlc]
        simp only [FormatDirective.render]
        rw [proj_after, ih (n - 1) hlt t1 k hlen ht1]
        generalize renderFrom args k (directives t1) = y
        cases y <;> rfl

theorem renderFrom_ok_le (args : List Arg) :
    ∀ (ds : List FormatDirective) (k : Nat) (o : List Nat), k ≤ args.length →
      renderFrom args k ds = .ok o → k + consumed ds ≤ args.length := by
  intro ds
  induction ds with
  | nil =>
    intro k o hk _
    simpa [consumed] using hk
  | cons d ds ih =>
    intro k o hk h
    cases hcons : d.consumes with
    | true =>
      rw [renderFrom_consuming _ _ _ _ hcons] at h
      rw [consumed_cons_true _ _ hcons]
      by_cases hlt : k < args.length
      · cases hr : d.render args[k]? with
        | error f => simp [hr] at h
        | ok o1 =>
          simp only [hr] at h
          obtain ⟨o2, ho2, _⟩ := map_eq_ok h
          have := ih (k + 1) o2 hlt ho2
          omega
      · have hnone : args[k]? = none := List.getElem?_eq_none (by omega)
        rw [hnone] at h
        cases d <;> simp [FormatDirective.render, FormatDirective.consumes] at h hcons
    | false =>
      rw [renderFrom_plain _ _ _ _ hcons] at h
      rw [consumed_cons_false _ _ hcons]
      cases hr : d.render none with
      | error f => simp [hr] at h
      | ok o1 =>
        simp only [hr] at h
        obtain ⟨o2, ho2, _⟩ := map_eq_ok h
        exact ih k o2 hk ho2

/-- C7: arguments are consumed strictly left to right.  On every template
`t` and argument list `args`, what `printf` writes and what it leaves of the
arguments are those of the rendering of the directives of `t` in which the
directive that is the `k`-th to consume an argument (`%s`, `%d` or `%x`) is
given `args[k]` and every other directive (`%%`, an unknown conversion, a
trailing `%`, a literal character) is given none; the arguments left are
`args` without as many leading ones as `t` has consuming directives.  Both
sides fault together when an argument is missing or of the wrong type, and
when `printf` returns, the number of arguments consumed is the number of
consuming directives of `t`. -/
theorem printf_left_to_right (t : List Nat) (args : List Arg) (ht : 0 ∉ t) :
    (printf (t ++ [0]) args).map (fun r => (r.out, r.args))
        = (renderFrom args 0 (directives t)).map
            (fun o => (o, args.drop (consumed (directives t)))) ∧
      ∀ r, printf (t ++ [0]) args = .ok r →
        r.args.length + consumed (directives t) = args.length := by
  have h := printfLoop_directives args t.length t 0 (le_refl _) ht
  rw [List.drop_zero, Nat.zero_add] at h
  refine ⟨h, ?_⟩
  intro r hr
  rw [printf] at hr
  rw [hr] at h
  cases hren : renderFrom args 0 (directives t) with
  | error f => simp [hren, Except.map] at h
  | ok o =>
    have hle := renderFrom_ok_le args (directives t) 0 o (Nat.zero_le _) hren
    simp only [hren, Except.map, Except.ok.injEq, Prod.mk.injEq] at h
    rw [h.2, List.length_drop]
    omega

/-- Instance of C7: the end-to-end example of the specification, rendered
through the theorem, writes `Hello, Ada! You are 30 years, id=0000beef` and a
newline and consumes the three arguments. -/
theorem printf_left_to_right_witness :
    0 ∉ cstr "Hello, %s! You are %d years, id=%x\n" ∧
    (printf (cstr "Hello, %s! You are %d years, id=%x\n" ++ [0])
        [Arg.str (some (tmpl "Ada")), Arg.int 30, Arg.int 0xBEEF]).map
        (fun r => (r.out, r.args))
      = .ok (cstr "Hello, Ada! You are 30 years, id=0000beef\n", []) :=
  ⟨by decide,
    (printf_left_to_right (cstr "Hello, %s! You are %d years, id=%x\n")
      [Arg.str (some (tmpl "Ada")), Arg.int 30, Arg.int 0xBEEF] (by decide)).1.trans
      (by decide)⟩

/-- C8: a template `t` without `%` is written character by character, in
order and unchanged, so the number of `putchar` calls is the length of `t`;
no argument is consumed, and the loop is left with `fmt` on the terminator.
The empty template writes nothing. -/
theorem printf_literal (t rest : List Nat) (args : List Arg) (h0 : 0 ∉ t) (h37 : 37 ∉ t) :
    printf (t ++ 0 :: rest) args = .ok ⟨t, args, t.length, false⟩ ∧
      printf (0 :: rest) args = .ok ⟨[], args, 0, false⟩ := by
  refine ⟨?_, printfLoop_end rest args⟩
  unfold printf
  induction t with
  | nil => exact printfLoop_end rest args
  | cons c t ih =>
    have hc0 : c ≠ 0 := fun h => h0 (by simp [h])
    have hc37 : c ≠ 37 := fun h => h37 (by simp [h])
    rw [List.cons_append, printfLoop_lit _ _ _ hc0 hc37,
      ih (fun h => h0 (List.mem_cons_of_mem _ h)) (fun h => h37 (List.mem_cons_of_mem _ h))]
    rfl

/-- Instance of C8 at the template `Hello, World!` with the unused argument
`3`. -/
theorem printf_literal_witness :
    0 ∉ cstr "Hello, World!" ∧ 37 ∉ cstr "Hello, World!" ∧
    (printf (cstr "Hello, World!" ++ 0 :: []) [Arg.int 3]
        = .ok ⟨cstr "Hello, World!", [Arg.int 3], (cstr "Hello, World!").length, false⟩ ∧
      printf (0 :: []) [Arg.int 3] = .ok ⟨[], [Arg.int 3], 0, false⟩) :=
  ⟨by decide, by decide,
    printf_literal (cstr "Hello, World!") [] [Arg.int 3] (by decide) (by decide)⟩

/-- C9: `%%` read in the literal state (the scan of the part `t` before it
ends in the literal state with result `r`) writes exactly one `%`, consumes
no argument, and the rest `u` of the template is then scanned as a template
of its own, from the literal state. -/
theorem printf_percent_percent (t u : List Nat) (args : List Arg) (r : Result)
    (ht : 0 ∉ t) (hr : printf (t ++ [0]) args = .ok r) (hd : r.dangling = false) :
    printf (t ++ 37 :: 37 :: u) args
      = (printf u r.args).map (Result.after (r.out ++ [37]) (t.length + 2)) := by
  rw [printf_append t args r ht hr hd, printf, printfLoop_conv _ _ _ (by decide),
    conversion_percent]
  simp only [map_map_except, after_after, printf]
  rw [Nat.add_comm]

/-- Instance of C9 at the template `a%%d` with the argument `7`. -/
theorem printf_percent_percent_witness :
    0 ∉ cstr "a" ∧
    printf (cstr "a" ++ [0]) [Arg.int 7] = .ok ⟨cstr "a", [Arg.int 7], 1, false⟩ ∧
    printf (cstr "a" ++ 37 :: 37 :: tmpl "d") [Arg.int 7]
      = (printf (tmpl "d") [Arg.int 7]).map
          (Result.after (cstr "a" ++ [37]) ((cstr "a").length + 2)) :=
  ⟨by decide, by decide,
    printf_percent_percent (cstr "a") (tmpl "d") [Arg.int 7] ⟨cstr "a", [Arg.int 7], 1, false⟩
      (by decide) (by decide) rfl⟩

/-- C10: for every firmware `F` and all eight inputs, `sbi_call` executes
exactly one `ecall`, on the registers `a0..a5 = arg0..arg5`, `a6 = fid`,
`a7 = eid`, and returns the `sbiret` whose `error` is the first output of
`F` on these registers and whose `value` is the second. -/
theorem sbi_call_spec (F : Firmware) (arg0 arg1 arg2 arg3 arg4 arg5 fid eid : Int)
    (m : Machine) :
    sbi_call F arg0 arg1 arg2 arg3 arg4 arg5 fid eid m
      = (⟨(F ⟨arg0, arg1, arg2, arg3, arg4, arg5, fid, eid⟩).1,
          (F ⟨arg0, arg1, arg2, arg3, arg4, arg5, fid, eid⟩).2⟩,
        ⟨m.ecalls ++ [⟨arg0, arg1, arg2, arg3, arg4, arg5, fid, eid⟩]⟩) :=
  rfl

/-! ## The examples of the specification, evaluated -/

/-- The testable properties of section 8 of the specification about
`format`, and the examples the properties above mention. -/
theorem printf_examples :
    printf (tmpl "%d") [Arg.int 0] = .ok ⟨cstr "0", [], 2, false⟩ ∧
    printf (tmpl "%d") [Arg.int (-5)] = .ok ⟨cstr "-5", [], 2, false⟩ ∧
    printf (tmpl "%d") [Arg.int 123] = .ok ⟨cstr "123", [], 2, false⟩ ∧
    printf (tmpl "%d") [Arg.int 1000] = .ok ⟨cstr "1000", [], 2, false⟩ ∧
    printf (tmpl "%d") [Arg.int INT_MAX] = .ok ⟨cstr "2147483647", [], 2, false⟩ ∧
    printf (tmpl "%d") [Arg.int (-2147483647)] = .ok ⟨cstr "-2147483647", [], 2, false⟩ ∧
    printf (tmpl "%x") [Arg.uint 0] = .ok ⟨cstr "00000000", [], 2, false⟩ ∧
    printf (tmpl "%x") [Arg.uint 255] = .ok ⟨cstr "000000ff", [], 2, false⟩ ∧
    printf (tmpl "%x") [Arg.uint UINT_MAX] = .ok ⟨cstr "ffffffff", [], 2, false⟩ ∧
    printf (tmpl "%s") [Arg.str none] = .ok ⟨cstr "(null)", [], 2, false⟩ ∧
    printf (tmpl "%s") [Arg.str (some (tmpl "hi"))] = .ok ⟨cstr "hi", [], 2, false⟩ ∧
    printf (tmpl "abc%") [] = .ok ⟨cstr "abc%", [], 4, true⟩ ∧
    printf (tmpl "%q") [Arg.int 5] = .ok ⟨cstr "%q", [Arg.int 5], 2, false⟩ ∧
    printf (tmpl "%q%d") [Arg.int 5] = .ok ⟨cstr "%q5", [], 4, false⟩ ∧
    printf (tmpl "%D%X%S%5%-") [Arg.int 5]
      = .ok ⟨cstr "%D%X%S%5%-", [Arg.int 5], 10, false⟩ ∧
    printf (tmpl "%%d") [Arg.int 5] = .ok ⟨cstr "%d", [Arg.int 5], 3, false⟩ ∧
    printf (tmpl "%%%%") [] = .ok ⟨cstr "%%", [], 4, false⟩ ∧
    printf (tmpl "") [] = .ok ⟨[], [], 0, false⟩ ∧
    printf (tmpl "Hello, %s! You are %d years, id=%x\n")
        [Arg.str (some (tmpl "Ada")), Arg.int 30, Arg.int 0xBEEF]
      = .ok ⟨cstr "Hello, Ada! You are 30 years, id=0000beef\n", [], 35, false⟩ := by
  decide

/-! ## `printf` on the machine -/

theorem emit_cons (F : Firmware) (c : Nat) (o : List Nat) (m : Machine) :
    emit F (c :: o) m = emit F o (putchar F c m) :=
  rfl

theorem emit_append (F : Firmware) (a b : List Nat) (m : Machine) :
    emit F (a ++ b) m = emit F b (emit F a m) := by
  unfold emit
  rw [List.foldl_append]

/-- The calls of a list of characters add their requests to the log. -/
theorem emit_ecalls (F : Firmware) (o : List Nat) (m : Machine) :
    emit F o m = ⟨m.ecalls ++ o.map putcharReq⟩ := by
  induction o generalizing m with
  | nil => simp [emit]
  | cons c o ih =>
    rw [emit_cons, ih]
    simp [putchar, sbi_call, ecall, putcharReq]

theorem putsLoopK_eq (F : Firmware) (s : List Nat) (m : Machine) :
    putsLoopK F s m = (putsLoop s).map (fun o => emit F o m) := by
  induction s generalizing m with
  | nil => rfl
  | cons c s ih =>
    rw [putsLoopK, putsLoop]
    by_cases hc : c = 0
    · rw [if_pos hc, if_pos hc]
      rfl
    · rw [if_neg hc, if_neg hc, ih, map_map_except]
      rfl

theorem digitLoopK_eq (F : Firmware) (fuel : Nat) (value divisor : Int) (m : Machine) :
    digitLoopK F fuel value divisor m
      = (digitLoop fuel value divisor).map (fun o => emit F o m) := by
  induction fuel generalizing value divisor m with
  | zero => rfl
  | succ fuel ih =>
    rw [digitLoopK, digitLoop]
    by_cases hd : divisor > 0
    · rw [if_pos hd, if_pos hd, ih, map_map_except]
      rfl
    · rw [if_neg hd, if_neg hd]
      rfl

theorem hexLoopK_eq (F : Firmware) (value i : Nat) (m : Machine) :
    hexLoopK F value i m = (hexLoop value i).map (fun o => emit F o m) := by
  induction i generalizing m with
  | zero => rfl
  | succ i ih =>
    rw [hexLoopK, hexLoop]
    cases hexTable[(value >>> (i * 4)) &&& 0xF]? with
    | none => rfl
    | some c =>
      simp only []
      rw [ih, map_map_except]
      rfl

theorem fmtSK_eq (F : Firmware) (s : Option (List Nat)) (m : Machine) :
    fmtSK F s m = (fmtS s).map (fun o => emit F o m) :=
  putsLoopK_eq F _ m

theorem fmtDK_eq (F : Firmware) (value : Int) (m : Machine) :
    fmtDK F value m = (fmtD value).map (fun o => emit F o m) := by
  unfold fmtDK fmtD
  by_cases h0 : value = 0
  · rw [if_pos h0, if_pos h0]
    rfl
  · rw [if_neg h0, if_neg h0]
    simp only []
    cases divisorLoop intFuel (if value < 0 then neg32 value else value) 1 with
    | error f => rfl
    | ok divisor =>
      simp only []
      rw [digitLoopK_eq]
      cases digitLoop intFuel (if value < 0 then neg32 value else value) divisor with
      | error f => rfl
      | ok digits =>
        by_cases hneg : value < 0
        · simp only [if_pos hneg, Except.map, emit_append]
          rfl
        · simp only [if_neg hneg, Except.map, List.nil_append]

theorem fmtXK_eq (F : Firmware) (value : Nat) (m : Machine) :
    fmtXK F value m = (fmtX value).map (fun o => emit F o m) :=
  hexLoopK_eq F value 8 m

theorem conversionK_eq (F : Firmware) (d : Nat) (args : List Arg) (m : Machine) :
    conversionK F d args m = (conversion d args).map (fun p => (p.2, emit F p.1 m)) := by
  unfold conversionK conversion
  by_cases h1 : d = 37
  · rw [if_pos h1, if_pos h1]
    rfl
  · rw [if_neg h1, if_neg h1]
    by_cases h2 : d = 115
    · rw [if_pos h2, if_pos h2]
      cases va_arg_str args with
      | error f => rfl
      | ok p =>
        obtain ⟨s, args1⟩ := p
        simp only [fmtSK_eq]
        cases fmtS s <;> rfl
    · rw [if_neg h2, if_neg h2]
      by_cases h3 : d = 100
      · rw [if_pos h3, if_pos h3]
        cases va_arg_int args with
        | error f => rfl
        | ok p =>
          obtain ⟨v, args1⟩ := p
          simp only [fmtDK_eq]
          cases fmtD v <;> rfl
      · rw [if_neg h3, if_neg h3]
        by_cases h4 : d = 120
        · rw [if_pos h4, if_pos h4]
          cases va_arg_uint args with
          | error f => rfl
          | ok p =>
            obtain ⟨v, args1⟩ := p
            simp only [fmtXK_eq]
            cases fmtX v <;> rfl
        · rw [if_neg h4, if_neg h4]
          rfl

/-- The machine after `printf` is the machine before it after the calls
`putchar(c)` for the characters `c` of the output list, in order. -/
theorem printfLoopK_eq (F : Firmware) :
    ∀ (n : Nat) (fmt : List Nat) (args : List Arg) (m : Machine), fmt.length ≤ n →
      printfLoopK F fmt args m = (printfLoop fmt args).map (fun r => emit F r.out m) := by
  intro n
  induction n using Nat.strong_induction_on with
  | _ n ih =>
    intro fmt args m hn
    match fmt, hn with
    | [], _ => rfl
    | c :: fmt1, hn =>
      by_cases hc0 : c = 0
      · subst hc0
        rw [printfLoop_end]
        cases fmt1 <;> simp [printfLoopK, Except.map, emit]
      · by_cases hc : c = 37
        · subst hc
          match fmt1, hn with
          | [], _ => rfl
          | d :: fmt2, hn =>
            by_cases hd0 : d = 0
            · subst hd0
              rw [printfLoop_dangling]
              simp [printfLoopK, Except.map, emit]
            · rw [printfLoop_conv _ _ _ hd0]
              have hK : printfLoopK F (37 :: d :: fmt2) args m =
                  match conversionK F d args m with
                  | .error f => .error f
                  | .ok (args1, m1) => printfLoopK F fmt2 args1 m1 := by
                simp [printfLoopK, hd0]
              rw [hK, conversionK_eq]
              cases conversion d args with
              | error f => rfl
              | ok p =>
                obtain ⟨o, args1⟩ := p
                simp only [Except.map]
                rw [ih (n - 2) (by simp at hn; omega) fmt2 args1 _ (by simp at hn; omega)]
                cases printfLoop fmt2 args1 with
                | error f => rfl
                | ok r => simp [Except.map, Result.after, emit_append]
        · rw [printfLoop_lit _ _ _ hc0 hc]
          have hK : printfLoopK F (c :: fmt1) args m
              = printfLoopK F fmt1 args (putchar F c m) := by
            cases fmt1 <;> simp [printfLoopK, hc0, hc]
          rw [hK, ih (n - 1) (by simp at hn; omega) fmt1 args _ (by simp at hn; omega)]
          cases printfLoop fmt1 args with
          | error f => rfl
          | ok r => simp [Except.map, Result.after, emit_cons]

theorem emit_firmware (F1 F2 : Firmware) (o : List Nat) (m : Machine) :
    emit F1 o m = emit F2 o m := by
  rw [emit_ecalls, emit_ecalls]

/-- C11: what the firmware returns has no influence on the calls made.  For
any two firmwares, `printf` on the same template and arguments leaves the
same log of `ecall` requests (or faults alike), and so does `putchar` on the
same character; the log after `printf` is the log before it followed by one
console-write request per character of the output. -/
theorem printf_firmware_independent (F1 F2 : Firmware) (fmt : List Nat) (args : List Arg)
    (m : Machine) (c : Nat) :
    printfK F1 fmt args m = printfK F2 fmt args m ∧
      putchar F1 c m = putchar F2 c m ∧
      printfK F1 fmt args m
        = (printf fmt args).map (fun r => ⟨m.ecalls ++ r.out.map putcharReq⟩) := by
  have h : ∀ F : Firmware, printfK F fmt args m
      = (printf fmt args).map (fun r => ⟨m.ecalls ++ r.out.map putcharReq⟩) := by
    intro F
    rw [printfK, printfLoopK_eq F fmt.length fmt args m (le_refl _), printf]
    simp only [emit_ecalls]
  exact ⟨by rw [h F1, h F2], rfl, h F1⟩

/-! ## `kernel_main` -/

theorem kernel_main_loop (F : Firmware) (m : Machine) (n : Nat) (hn : n ≤ 14) :
    kernel_main F m n
      = .loop (hello.drop n) (emit F ((cstr "Hello, World!\n").take n) m) := by
  interval_cases n <;> rfl

theorem kernel_main_idle (F : Firmware) (m : Machine) (k : Nat) :
    kernel_main F m (15 + k) = .idle (emit F (cstr "Hello, World!\n") m) := by
  induction k with
  | zero =>
    show kstep F (kernel_main F m 14) = _
    rw [kernel_main_loop F m 14 (le_refl _)]
    rfl
  | succ k ih =>
    show kstep F (kernel_main F m (15 + k)) = _
    rw [ih]
    rfl

/-- C12 (as the code has it): `kernel_main` makes exactly 14 console-write
calls, one per character of `Hello, World!` and the newline, in order, each
with `a0` the character code, `a1` to `a5` zero, `a6 = 1` and `a7 = 0`.  It
makes them by calling `putchar` from its own loop: after `n ≤ 14` steps the
pointer has advanced by `n` and the log has grown by the requests of the first
`n` characters.  From step 15 on it is in the idle loop for ever, with the log
unchanged, so it makes no further call and never returns or faults.  The log
is the one `printf` would leave on the same string. -/
theorem kernel_main_spec (F : Firmware) (m : Machine) :
    (∀ n, n ≤ 14 → kernel_main F m n
        = .loop (hello.drop n)
            ⟨m.ecalls ++ ((cstr "Hello, World!\n").take n).map putcharReq⟩) ∧
      (∀ n, 15 ≤ n → kernel_main F m n
        = .idle ⟨m.ecalls ++ (cstr "Hello, World!\n").map putcharReq⟩) ∧
      ((cstr "Hello, World!\n").map putcharReq).length = 14 ∧
      (cstr "Hello, World!\n").map putcharReq
        = (cstr "Hello, World!\n").map (fun c => ⟨(c : Int), 0, 0, 0, 0, 0, 1, 0⟩) ∧
      (∀ n m1, kernel_main F m n ≠ .returned m1) ∧
      (∀ n f, kernel_main F m n ≠ .fault f) ∧
      printfK F hello [] m
        = .ok ⟨m.ecalls ++ (cstr "Hello, World!\n").map putcharReq⟩ := by
  have hloop : ∀ n, n ≤ 14 → kernel_main F m n
      = .loop (hello.drop n)
          ⟨m.ecalls ++ ((cstr "Hello, World!\n").take n).map putcharReq⟩ := by
    intro n hn
    rw [kernel_main_loop F m n hn, emit_ecalls]
  have hidle : ∀ n, 15 ≤ n → kernel_main F m n
      = .idle ⟨m.ecalls ++ (cstr "Hello, World!\n").map putcharReq⟩ := by
    intro n hn
    obtain ⟨k, rfl⟩ : ∃ k, n = 15 + k := ⟨n - 15, by omega⟩
    rw [kernel_main_idle, emit_ecalls]
  refine ⟨hloop, hidle, by decide, by decide, ?_, ?_, ?_⟩
  · intro n m1
    by_cases hn : n ≤ 14
    · rw [hloop n hn]
      exact fun h => by cases h
    · rw [hidle n (by omega)]
      exact fun h => by cases h
  · intro n f
    by_cases hn : n ≤ 14
    · rw [hloop n hn]
      exact fun h => by cases h
    · rw [hidle n (by omega)]
      exact fun h => by cases h
  · have hp : printf hello [] = .ok ⟨cstr "Hello, World!\n", [], 14, false⟩ := by decide
    rw [printfK, printfLoopK_eq F hello.length hello [] m (le_refl _), ← printf, hp]
    simp only [Except.map, emit_ecalls]

/-- C12 (as stated, fails): the claim has `kernel_main` emit its characters
through the formatted writer.  In the code the body of `kernel_main` calls
`putchar` and nothing else, and `printf` is reached neither from
`kernel_main` nor from `_start`. -/
theorem kernel_main_not_through_printf :
    callees Fn.kernel_main = [Fn.putchar] ∧
      reaches 4 Fn.kernel_main Fn.printf = false ∧
      reaches 4 Fn.start Fn.printf = false ∧
      reaches 4 Fn.kernel_main Fn.sbi_call = true := by
  decide

/-! ## The divisor loop -/

/-- Every product the divisor loop computes, started at `10^j ≤ m`, is a
power of ten that does not exceed `m`. -/
theorem divisorProducts_pow (m : Nat) (hm : m < 2147483648) :
    ∀ (fuel j : Nat), 10 ^ j ≤ m →
      ∀ p ∈ divisorProducts fuel (m : Int) ((10 ^ j : Nat) : Int),
        ∃ i : Nat, p = ((10 ^ i : Nat) : Int) ∧ 10 ^ i ≤ m := by
  intro fuel
  induction fuel with
  | zero =>
    intro j _ p hp
    simp [divisorProducts] at hp
  | succ fuel ih =>
    intro j hj p hp
    have hpos : 0 < 10 ^ j := Nat.pow_pos (by decide)
    unfold divisorProducts at hp
    rw [div32_natCast _ hm, if_neg (by omega)] at hp
    by_cases hq : m / 10 ^ j < 10
    · rw [if_neg (by omega)] at hp
      simp at hp
    · have hge : 10 ^ (j + 1) ≤ m := by
        rw [Nat.pow_succ]
        have := (Nat.le_div_iff_mul_le hpos).mp (Nat.le_of_not_lt hq)
        omega
      have h10 : ((10 : Nat) : Int) = 10 := rfl
      rw [if_pos (by omega), ← h10, mul32_natCast (by rw [← Nat.pow_succ]; omega),
        ← Nat.pow_succ] at hp
      rcases List.mem_cons.mp hp with rfl | hp
      · exact ⟨j + 1, by rw [← Nat.cast_mul, ← Nat.pow_succ], hge⟩
      · exact ih (j + 1) hge p hp

/-- C14: for every magnitude `1 ≤ m ≤ 2^31 - 1` the divisor loop, started at
divisor 1, ends within its fuel with the divisor `10^k` such that
`10^k ≤ m < 10^(k+1)`, and every product `divisor * 10` it computes, taken as
an integer, is at most `10^9`, hence at most `INT_MAX`. -/
theorem divisorLoop_spec (m : Nat) (h1 : 1 ≤ m) (h2 : m ≤ 2147483647) :
    ∃ k : Nat, divisorLoop intFuel (m : Int) 1 = .ok ((10 ^ k : Nat) : Int) ∧
      10 ^ k ≤ m ∧ m < 10 ^ (k + 1) ∧
      ∀ p ∈ divisorProducts intFuel (m : Int) 1, p ≤ 1000000000 ∧ p ≤ INT_MAX := by
  have hm : m < 2147483648 := by omega
  obtain ⟨k, _, _, hk1, hk2, hk⟩ :=
    divisorLoop_pow m hm 9 0 intFuel (by simpa using h1) (by norm_num; omega)
      (by unfold intFuel; omega)
  refine ⟨k, by simpa using hk, hk1, hk2, ?_⟩
  intro p hp
  obtain ⟨i, rfl, hi⟩ :=
    divisorProducts_pow m hm intFuel 0 (by simpa using h1) p (by simpa using hp)
  have hi9 : i ≤ 9 := by
    by_contra hcon
    have : 10 ^ 10 ≤ 10 ^ i := Nat.pow_le_pow_right (by decide) (by omega)
    norm_num at this
    omega
  have hle : 10 ^ i ≤ 10 ^ 9 := Nat.pow_le_pow_right (by decide) hi9
  norm_num at hle
  unfold INT_MAX
  constructor <;> exact_mod_cast (by omega : 10 ^ i ≤ _)

/-- Instance of C14 at the largest `int`. -/
theorem divisorLoop_spec_witness :
    1 ≤ 2147483647 ∧ 2147483647 ≤ 2147483647 ∧
    ∃ k : Nat, divisorLoop intFuel ((2147483647 : Nat) : Int) 1 = .ok ((10 ^ k : Nat) : Int) ∧
      10 ^ k ≤ 2147483647 ∧ 2147483647 < 10 ^ (k + 1) ∧
      ∀ p ∈ divisorProducts intFuel ((2147483647 : Nat) : Int) 1,
        p ≤ 1000000000 ∧ p ≤ INT_MAX :=
  ⟨by decide, by decide, divisorLoop_spec 2147483647 (by decide) (by decide)⟩

/-! ## Digits and sign of the decimal conversion -/

/-- The digit characters of a positive number are decimal digits and the
first is not `0`. -/
theorem digits_chars (m : Nat) (hm : 0 < m) :
    (∀ c ∈ (Nat.digits 10 m).reverse.map (fun d => 48 + d), 48 ≤ c ∧ c ≤ 57) ∧
      ∃ c rest, (Nat.digits 10 m).reverse.map (fun d => 48 + d) = c :: rest ∧ c ≠ 48 := by
  constructor
  · intro c hc
    obtain ⟨d, hd, rfl⟩ := List.mem_map.mp hc
    have := Nat.digits_lt_base (by decide : 1 < 10) (List.mem_reverse.mp hd)
    omega
  · have hne : Nat.digits 10 m ≠ [] := Nat.digits_ne_nil_iff_ne_zero.mpr (by omega)
    have hlast := Nat.getLast_digit_ne_zero 10 (by omega : m ≠ 0)
    have hrev : (Nat.digits 10 m).reverse ≠ [] := by simpa using hne
    obtain ⟨d, ds, hds⟩ := List.exists_cons_of_ne_nil hrev
    refine ⟨48 + d, ds.map (fun d => 48 + d), by rw [hds]; rfl, ?_⟩
    have hd : (Nat.digits 10 m).getLast hne = d := by
      have h2 : Nat.digits 10 m = (d :: ds).reverse := by
        rw [← hds, List.reverse_reverse]
      simp [h2]
    rw [hd] at hlast
    omega

/-- For every `int` other than `INT_MIN` and zero, what `printf("%d", v)`
writes after the sign are decimal digits, the first of them not `0`. -/
theorem printf_d_digits_of_ne_int_min (v : Int) (h1 : INT_MIN < v) (h2 : v ≤ INT_MAX)
    (h0 : v ≠ 0) :
    ∃ ds, printf (tmpl "%d") [Arg.int v]
        = .ok ⟨(if v < 0 then [45] else []) ++ ds, [], 2, false⟩ ∧
      (∀ c ∈ ds, 48 ≤ c ∧ c ≤ 57) ∧ ds.head? ≠ some 48 ∧ ds ≠ [] := by
  obtain ⟨hall, c, rest, hcons, hc⟩ := digits_chars v.natAbs (Int.natAbs_pos.mpr h0)
  refine ⟨(Nat.digits 10 v.natAbs).reverse.map (fun d => 48 + d), ?_, hall, ?_, ?_⟩
  · rw [printf_d_of_ne_int_min v [] h1 h2]
    simp [decimal, h0]
  · rw [hcons]
    simpa using hc
  · rw [hcons]
    exact List.cons_ne_nil _ _

/-- C15 (fails at `INT_MIN`): the first digit `printf("%d", v)` writes is
claimed to be `0` only when `v = 0`.  At the smallest `int` the code writes
the sign and then the single digit `0`, although the value is not zero. -/
theorem printf_d_int_min_leading_zero :
    ∃ r, printf (tmpl "%d") [Arg.int INT_MIN] = .ok r ∧
      r.out.head? = some 45 ∧ r.out.tail.head? = some 48 ∧ INT_MIN ≠ 0 :=
  ⟨⟨[45, 48], [], 2, false⟩, by decide, by decide, by decide, by decide⟩

/-- C16: for every `int` `v` with `-(2^31 - 1) ≤ v < 0`, `printf("%d", v)`
writes `-` followed by exactly what `printf("%d", -v)` writes. -/
theorem printf_d_negative (v : Int) (h1 : -2147483647 ≤ v) (h2 : v < 0) :
    ∃ o, printf (tmpl "%d") [Arg.int (-v)] = .ok ⟨o, [], 2, false⟩ ∧
      printf (tmpl "%d") [Arg.int v] = .ok ⟨45 :: o, [], 2, false⟩ := by
  refine ⟨decimal (-v), ?_, ?_⟩
  · exact printf_d_of_ne_int_min (-v) [] (by unfold INT_MIN; omega) (by unfold INT_MAX; omega)
  · rw [printf_d_of_ne_int_min v [] (by unfold INT_MIN; omega) (by unfold INT_MAX; omega)]
    have hv0 : v ≠ 0 := by omega
    have hn0 : -v ≠ 0 := by omega
    have hnn : ¬ (-v < 0) := by omega
    simp only [decimal, if_neg hv0, if_neg hn0, if_pos h2, if_neg hnn, Int.natAbs_neg,
      List.nil_append, List.singleton_append]

/-- Instance of C16 at the most negative value in its range. -/
theorem printf_d_negative_witness :
    (-2147483647 : Int) ≤ -2147483647 ∧ (-2147483647 : Int) < 0 ∧
    ∃ o, printf (tmpl "%d") [Arg.int (-(-2147483647))] = .ok ⟨o, [], 2, false⟩ ∧
      printf (tmpl "%d") [Arg.int (-2147483647)] = .ok ⟨45 :: o, [], 2, false⟩ :=
  ⟨by decide, by decide, printf_d_negative (-2147483647) (by decide) (by decide)⟩

/-! ## Termination of the scan inside the template -/

theorem putsLoop_ok (b : List Nat) (h : 0 ∈ b) : ∃ o, putsLoop b = .ok o := by
  induction b with
  | nil => simp at h
  | cons c b ih =>
    rw [putsLoop]
    by_cases hc : c = 0
    · exact ⟨[], by rw [if_pos hc]⟩
    · have hb : 0 ∈ b := by
        rcases List.mem_cons.mp h with h | h
        · exact absurd h.symm hc
        · exact h
      obtain ⟨o, ho⟩ := ih hb
      exact ⟨c :: o, by rw [if_neg hc, ho]; rfl⟩

/-- A consuming conversion given an argument it can take writes something
and consumes exactly that argument. -/
theorem conversion_ok_of_argOk (d : Nat) (a : Arg) (rest : List Arg)
    (hc : (classify d).consumes = true) (ha : argOk (classify d) a = true) :
    ∃ o, conversion d (a :: rest) = .ok (o, rest) := by
  rcases consuming_cases d hc with rfl | rfl | rfl
  · have hcl : classify 115 = .StringArg := rfl
    rw [hcl] at ha
    cases a with
    | str p =>
      rw [conversion_s]
      cases p with
      | none =>
        have hnull : fmtS none = .ok (cstr "(null)") := by decide
        exact ⟨cstr "(null)", by rw [hnull]⟩
      | some b =>
        have hb : 0 ∈ b := by simpa [argOk] using ha
        obtain ⟨o, ho⟩ := putsLoop_ok b hb
        exact ⟨o, by simp only [fmtS, ho]⟩
    | int v => simp [argOk] at ha
    | uint v => simp [argOk] at ha
  · have hcl : classify 100 = .DecimalArg := rfl
    rw [hcl] at ha
    cases a with
    | str p => simp [argOk] at ha
    | int v =>
      have hv : INT_MIN ≤ v ∧ v ≤ INT_MAX := by simpa [argOk] using ha
      obtain ⟨o, ho⟩ := fmtD_total v hv.1 hv.2
      exact ⟨o, by rw [conversion_d v rest hv.1 hv.2, ho]⟩
    | uint v =>
      have hv : (v : Int) ≤ INT_MAX := by simpa [argOk] using ha
      obtain ⟨o, ho⟩ := fmtD_total (v : Int) (by unfold INT_MIN; omega) hv
      exact ⟨o, by rw [conversion_d_uint v rest hv, ho]⟩
  · have hcl : classify 120 = .HexArg := rfl
    rw [hcl] at ha
    cases a with
    | str p => simp [argOk] at ha
    | int v =>
      have hv : 0 ≤ v ∧ v ≤ INT_MAX := by simpa [argOk] using ha
      exact ⟨_, by rw [conversion_x_int v rest hv.1 hv.2, fmtX_eq]⟩
    | uint v =>
      have hv : v ≤ UINT_MAX := by simpa [argOk] using ha
      exact ⟨_, by rw [conversion_x v rest hv, fmtX_eq]⟩

theorem argsMatch_consuming_nil (d : FormatDirective) (ds : List FormatDirective)
    (h : d.consumes = true) : argsMatch (d :: ds) [] = false := by
  simp [argsMatch, h]

theorem argsMatch_consuming_cons (d : FormatDirective) (ds : List FormatDirective)
    (a : Arg) (rest : List Arg) (h : d.consumes = true) :
    argsMatch (d :: ds) (a :: rest) = (argOk d a && argsMatch ds rest) := by
  simp [argsMatch, h]

theorem argsMatch_plain (d : FormatDirective) (ds : List FormatDirective)
    (args : List Arg) (h : d.consumes = false) :
    argsMatch (d :: ds) args = argsMatch ds args := by
  cases args <;> simp [argsMatch, h]

/-- On a terminated template with matching arguments the scan returns, and
it leaves the loop with `fmt` on the terminator. -/
theorem printfLoop_total :
    ∀ (n : Nat) (t : List Nat) (args : List Arg), t.length ≤ n → 0 ∉ t →
      argsMatch (directives t) args = true →
      ∃ r, printfLoop (t ++ [0]) args = .ok r ∧ r.stop = t.length := by
  intro n
  induction n using Nat.strong_induction_on with
  | _ n ih =>
    intro t args hn ht hm
    match t, hn, ht, hm with
    | [], _, _, _ => exact ⟨_, printfLoop_end [] args, rfl⟩
    | c :: t1, hn, ht, hm =>
      have hc0 : c ≠ 0 := fun h => ht (by simp [h])
      have ht1 : 0 ∉ t1 := fun h => ht (List.mem_cons_of_mem _ h)
      by_cases hc : c = 37
      · subst hc
        match t1, hn, ht1, hm with
        | [], _, _, _ => exact ⟨_, printfLoop_dangling [] args, rfl⟩
        | d :: t2, hn, ht1, hm =>
          have hd0 : d ≠ 0 := fun h => ht1 (by simp [h])
          have ht2 : 0 ∉ t2 := fun h => ht1 (List.mem_cons_of_mem _ h)
          have hlen : t2.length ≤ n - 2 := by simp at hn; omega
          have hlt : n - 2 < n := by simp at hn; omega
          rw [directives_cons_cons] at hm
          simp only [List.cons_append]
          rw [printfLoop_conv _ _ _ hd0]
          cases hcons : (classify d).consumes with
          | true =>
            match args, hm with
            | [], hm => simp [argsMatch_consuming_nil _ _ hcons] at hm
            | a :: rest, hm =>
              rw [argsMatch_consuming_cons _ _ _ _ hcons] at hm
              simp only [Bool.and_eq_true] at hm
              obtain ⟨o, ho⟩ := conversion_ok_of_argOk d a rest hcons hm.1
              obtain ⟨r, hr, hs⟩ := ih (n - 2) hlt t2 rest hlen ht2 hm.2
              rw [ho]
              simp only [hr]
              exact ⟨_, rfl, by simp [Result.after, hs]⟩
          | false =>
            rw [argsMatch_plain _ _ _ hcons] at hm
            obtain ⟨o, _, ho⟩ := conversion_plain d args hcons
            obtain ⟨r, hr, hs⟩ := ih (n - 2) hlt t2 args hlen ht2 hm
            rw [ho]
            simp only [hr]
            exact ⟨_, rfl, by simp [Result.after, hs]⟩
      · have hlen : t1.length ≤ n - 1 := by simp at hn; omega
        have hlt : n - 1 < n := by simp at hn; omega
        have hlc : (FormatDirective.LiteralChar c).consumes = false := rfl
        rw [directives_lit _ _ hc, argsMatch_plain _ _ _ hlc] at hm
        obtain ⟨r, hr, hs⟩ := ih (n - 1) hlt t1 args hlen ht1 hm
        simp only [List.cons_append]
        rw [printfLoop_lit _ _ _ hc0 hc, hr]
        exact ⟨_, rfl, by simp [Result.after, hs]⟩

/-- C17: on every template `t` (bytes without a zero) and every matching
argument list, the scan of `printf` over the buffer that holds `t` and its
terminator and nothing more returns: no read faults, so `fmt` is dereferenced
at the offsets `0` to `t.length` only, and the loop is left with `fmt` at
offset `t.length`, on the terminator.  The same result is obtained whatever
follows the terminator in memory.  A buffer without a terminator makes the
read after its last byte fault. -/
theorem printf_terminates_in_bounds (t : List Nat) (args : List Arg) (ht : 0 ∉ t)
    (hm : argsMatch (directives t) args = true) :
    ∃ r, printf (t ++ [0]) args = .ok r ∧ r.stop = t.length ∧
      (∀ rest, printf (t ++ 0 :: rest) args = .ok r) ∧
      printf [] args = .error .outOfBounds ∧ printf [37] args = .error .outOfBounds := by
  obtain ⟨r, hr, hs⟩ := printfLoop_total t.length t args (le_refl _) ht hm
  refine ⟨r, hr, hs, ?_, rfl, rfl⟩
  intro rest
  rw [printf, printfLoop_rest t.length t args rest (le_refl _) ht]
  exact hr

/-- Instance of C17: a template that ends in an unknown conversion, and one
that ends in `%`, with a string and an integer argument. -/
theorem printf_terminates_in_bounds_witness :
    (0 ∉ cstr "%s=%d%q" ∧
      argsMatch (directives (cstr "%s=%d%q")) [Arg.str (some (tmpl "n")), Arg.int 7] = true ∧
      ∃ r, printf (cstr "%s=%d%q" ++ [0]) [Arg.str (some (tmpl "n")), Arg.int 7] = .ok r ∧
        r.stop = (cstr "%s=%d%q").length ∧
        (∀ rest, printf (cstr "%s=%d%q" ++ 0 :: rest)
          [Arg.str (some (tmpl "n")), Arg.int 7] = .ok r) ∧
        printf [] [Arg.str (some (tmpl "n")), Arg.int 7] = .error .outOfBounds ∧
        printf [37] [Arg.str (some (tmpl "n")), Arg.int 7] = .error .outOfBounds) ∧
    printf (tmpl "%s=%d%q") [Arg.str (some (tmpl "n")), Arg.int 7]
      = .ok ⟨cstr "n=7%q", [], 7, false⟩ ∧
    printf (tmpl "%s=%d%") [Arg.str (some (tmpl "n")), Arg.int 7]
      = .ok ⟨cstr "n=7%", [], 6, true⟩ :=
  ⟨⟨by decide, by decide,
      printf_terminates_in_bounds (cstr "%s=%d%q") [Arg.str (some (tmpl "n")), Arg.int 7]
        (by decide) (by decide)⟩,
    by decide, by decide⟩

/-! ## Concatenation of templates -/

/-- A conversion that succeeds on an argument list does the same, and leaves
the added arguments, when arguments are added at the end. -/
theorem conversion_args_append (d : Nat) (a1 a2 left : List Arg) (o : List Nat)
    (h : conversion d a1 = .ok (o, left)) :
    conversion d (a1 ++ a2) = .ok (o, left ++ a2) := by
  cases hcons : (classify d).consumes with
  | false =>
    obtain ⟨o1, ho1, hc1⟩ := conversion_plain d a1 hcons
    obtain ⟨o2, ho2, hc2⟩ := conversion_plain d (a1 ++ a2) hcons
    rw [hc1] at h
    rw [ho1] at ho2
    cases h
    cases ho2
    exact hc2
  | true =>
    match a1, h with
    | [], h =>
      rw [(conversion_consuming_nil d hcons).1] at h
      cases h
    | a :: rest, h =>
      rw [conversion_consuming_cons d a rest hcons] at h
      rw [List.cons_append, conversion_consuming_cons d a (rest ++ a2) hcons]
      cases hr : (classify d).render (some a) with
      | error f => simp [hr] at h
      | ok o1 =>
        simp only [hr, Except.ok.injEq, Prod.mk.injEq] at h
        obtain ⟨rfl, rfl⟩ := h
        rfl

/-- A scan that returns on an argument list returns the same, and leaves the
added arguments, when arguments are added at the end. -/
theorem printfLoop_args_append :
    ∀ (n : Nat) (fmt : List Nat) (a1 a2 : List Arg) (r : Result), fmt.length ≤ n →
      printfLoop fmt a1 = .ok r →
      printfLoop fmt (a1 ++ a2) = .ok { r with args := r.args ++ a2 } := by
  intro n
  induction n using Nat.strong_induction_on with
  | _ n ih =>
    intro fmt a1 a2 r hn hr
    match fmt, hn, hr with
    | [], _, hr => cases hr
    | c :: fmt1, hn, hr =>
      by_cases hc0 : c = 0
      · subst hc0
        rw [printfLoop_end] at hr ⊢
        cases hr
        rfl
      · by_cases hc : c = 37
        · subst hc
          match fmt1, hn, hr with
          | [], _, hr => cases hr
          | d :: fmt2, hn, hr =>
            by_cases hd0 : d = 0
            · subst hd0
              rw [printfLoop_dangling] at hr ⊢
              cases hr
              rfl
            · rw [printfLoop_conv _ _ _ hd0] at hr ⊢
              cases hconv : conversion d a1 with
              | error f => simp [hconv] at hr
              | ok p =>
                obtain ⟨o, left⟩ := p
                rw [conversion_args_append d a1 a2 left o hconv]
                simp only [hconv] at hr ⊢
                obtain ⟨r1, hr1, rfl⟩ := map_eq_ok hr
                rw [ih (n - 2) (by simp at hn; omega) fmt2 left a2 r1 (by simp at hn; omega) hr1]
                rfl
        · rw [printfLoop_lit _ _ _ hc0 hc] at hr ⊢
          obtain ⟨r1, hr1, rfl⟩ := map_eq_ok hr
          rw [ih (n - 1) (by simp at hn; omega) fmt1 a1 a2 r1 (by simp at hn; omega) hr1]
          rfl

/-- C18: `printf` is compositional over concatenation.  When the scan of
`t1` alone on the arguments `a1` ends in the literal state and leaves no
argument, `printf` on `t1` followed by `t2` with the arguments `a1` followed
by `a2` behaves as `printf` on `t2` with `a2` after the output of `t1`: the
two fault alike, and otherwise the output is that of `t1` on `a1` followed by
that of `t2` on `a2`.  Without the condition on the final state this fails:
`%` alone writes `%` and `d` alone writes `d`, but together they write the
decimal rendering of the argument. -/
theorem printf_concat (t1 t2 : List Nat) (a1 a2 : List Arg) (r1 : Result) (ht : 0 ∉ t1)
    (hr : printf (t1 ++ [0]) a1 = .ok r1) (hd : r1.dangling = false) (ha : r1.args = []) :
    printf (t1 ++ t2) (a1 ++ a2) = (printf t2 a2).map (Result.after r1.out t1.length) ∧
      (∀ r2, printf t2 a2 = .ok r2 →
        ∃ r, printf (t1 ++ t2) (a1 ++ a2) = .ok r ∧ r.out = r1.out ++ r2.out) ∧
      (printf (tmpl "%") [] = .ok ⟨cstr "%", [], 1, true⟩ ∧
        printf (tmpl "d") [Arg.int 5] = .ok ⟨cstr "d", [Arg.int 5], 1, false⟩ ∧
        printf (cstr "%" ++ tmpl "d") ([] ++ [Arg.int 5]) = .ok ⟨cstr "5", [], 2, false⟩) := by
  have hr2 := printfLoop_args_append (t1 ++ [0]).length (t1 ++ [0]) a1 a2 r1 (le_refl _) hr
  rw [ha, List.nil_append] at hr2
  have hcomp := printf_append t1 (a1 ++ a2) { r1 with args := a2 } ht hr2 hd t2
  refine ⟨hcomp, ?_, by decide⟩
  intro r2 h2
  rw [hcomp, h2]
  exact ⟨_, rfl, rfl⟩

/-- Instance of C18: `id=%x ` with the argument `255`, then `%s!` with a
string. -/
theorem printf_concat_witness :
    0 ∉ cstr "id=%x " ∧
    printf (cstr "id=%x " ++ [0]) [Arg.uint 255] = .ok ⟨cstr "id=000000ff ", [], 6, false⟩ ∧
    printf (cstr "id=%x " ++ tmpl "%s!") ([Arg.uint 255] ++ [Arg.str (some (tmpl "ok"))])
      = (printf (tmpl "%s!") [Arg.str (some (tmpl "ok"))]).map
          (Result.after (cstr "id=000000ff ") (cstr "id=%x ").length) ∧
    printf (cstr "id=%x " ++ tmpl "%s!") ([Arg.uint 255] ++ [Arg.str (some (tmpl "ok"))])
      = .ok ⟨cstr "id=000000ff ok!", [], 9, false⟩ :=
  ⟨by decide, by decide,
    (printf_concat (cstr "id=%x ") (tmpl "%s!") [Arg.uint 255] [Arg.str (some (tmpl "ok"))]
      ⟨cstr "id=000000ff ", [], 6, false⟩ (by decide) (by decide) rfl rfl).1,
    by decide⟩

end TinyCOS
